import Mathlib

/-!
# Verification of the `fixtures-ts` dependency-resolution and lifecycle engine

Shallow embedding of `src/fixtures.ts` (the implementation appended to
`src/src/fixtures.test.ts`, lines 281-455): the dependency graph builder
(`loadDeps` inside `setup`), the topological sorter (`sortFixtures`), and the
lifecycle orchestrator (`setup`, `teardown`, `get`) returned by
`createFixtures`.

Modelling conventions:
* fixture names are `String` (TypeScript object keys);
* a fixture's asynchronous setup operation is a function from the record of
  already-resolved values to `Except E (value × cleanup)`; the sequential
  `await`s of the source become plain sequential composition;
* a cleanup callback is modelled by a label (identifying the callback, so that
  invocation order is observable) together with its raise-behaviour
  (`none` = resolves, `some e` = rejects);
* JavaScript `Map` / `Set` / plain-object records become association lists and
  insertion-ordered duplicate-free lists; `Map.get` / property access become
  `lookupKey` (first match);
* the two recursive closures of the source (`visit` in `sortFixtures`,
  `loadDeps` in `setup`) recurse through a memo structure rather than
  structurally; they are embedded with a fuel parameter that decreases with
  recursion depth.  The top-level entry points supply fuel that provably
  suffices (`visit_fuel_sufficient`, `loadDeps_fuel_sufficient`), so the
  out-of-fuel branches are dead code;
* invocations of the externally supplied setup/cleanup operations are recorded
  in an event trace, which is what the order/count claims are about.
-/

namespace FixturesTs

/-- First-match association-list lookup: JavaScript `Map.get` / `obj[key]`. -/
def lookupKey {β : Type _} : List (String × β) → String → Option β
  | [], _ => none
  | (k', v) :: rest, k => if k' = k then some v else lookupKey rest k

/-- JavaScript `Set.add`: insertion-ordered, keeps the first occurrence. -/
def insertSet (s : List String) (x : String) : List String :=
  if x ∈ s then s else s ++ [x]

/-- A cleanup callback: `label` identifies the callback (so invocations are
observable in the trace) and `fails` is its raise-behaviour. -/
structure CleanupSpec (E : Type) where
  label : String
  fails : Option E
  deriving DecidableEq, Repr

/-- `AnyFixture` from `src/types.ts`: declared dependency names plus the setup
operation, which receives the record of resolved values and either raises an
`E` or produces a value and a cleanup callback. -/
structure AnyFixture (V E : Type) where
  dependencies : List String
  setup : List (String × V) → Except E (V × CleanupSpec E)

/-- `FixtureRegistry`: a plain object mapping names to fixtures. -/
abbrev Registry (V E : Type) := List (String × AnyFixture V E)

/-- The distinguishable errors thrown by the engine: the two structural error
messages, the `get`-before-`setup` error, and re-thrown user errors. -/
inductive Err (E : Type) where
  /-- `Circular dependency detected: ${name}` -/
  | circular (name : String)
  /-- `Fixture not found: ${name}` -/
  | notFound (name : String)
  /-- `Fixtures not initialized` -/
  | notInitialized
  /-- an error raised by a user-supplied setup operation, re-thrown -/
  | user (e : E)
  deriving DecidableEq, Repr

/-- Observable invocations of the externally supplied operations: a fixture's
setup operation called with the record passed to it, or a cleanup callback
(identified by its label) called. -/
inductive Event (V : Type) where
  | setupCall (name : String) (passed : List (String × V))
  | cleanupCall (label : String)
  deriving DecidableEq, Repr

/-- The instance state captured by the `state` object of `createFixtures`:
`deps` (`null` or the resolved values) and the pending cleanup list. -/
structure FixState (V E : Type) where
  deps : Option (List (String × V))
  cleanups : List (CleanupSpec E)
  deriving DecidableEq, Repr

/-- `const state = { deps: null, cleanups: [] }` at construction. -/
def initState (V E : Type) : FixState V E := ⟨none, []⟩

variable {V E : Type}

/-- `getFixture`: look a name up in the registry, throwing `Fixture not found`
when absent. -/
def getFixture (registry : Registry V E) (name : String) :
    Except (Err E) (AnyFixture V E) :=
  match lookupKey registry name with
  | none => .error (.notFound name)
  | some fx => .ok fx

/-- Sequentially thread a fallible, fuel-limited step over a list, stopping at
the first raised error (`some (.error e)`) or fuel exhaustion (`none`).  This
is the shape shared by every `for`/`forEach` loop of the source whose body may
throw. -/
def chainM {σ ε : Type _} (f : String → σ → Option (Except ε σ)) :
    List String → σ → Option (Except ε σ)
  | [], st => some (.ok st)
  | d :: rest, st =>
    match f d st with
    | none => none
    | some (.error e) => some (.error e)
    | some (.ok st') => chainM f rest st'

/-! ## The topological sorter (`sortFixtures`) -/

/-- The mutable context of `sortFixtures`: the output list and the two
colour sets of the depth-first traversal. -/
structure SortSt where
  sorted : List String
  visited : List String
  visiting : List String
  deriving DecidableEq, Repr

/-- The recursive `visit` closure of `sortFixtures`.  `fuel` bounds the
recursion depth (the source recurses through the `visiting` set; fuel
`dependencies.length + 1` is provably sufficient, see
`visit_fuel_sufficient`). -/
def visit (deps : List (String × List String)) :
    Nat → String → SortSt → Option (Except (Err E) SortSt)
  | 0, _, _ => none
  | fuel + 1, name, st =>
    if name ∈ st.visited then some (.ok st)
    else if name ∈ st.visiting then some (.error (.circular name))
    else
      let stIn : SortSt := { st with visiting := name :: st.visiting }
      let res : Option (Except (Err E) SortSt) :=
        match lookupKey deps name with
        | none => some (.ok stIn)
        | some ds => chainM (fun d s => visit deps fuel d s) ds stIn
      match res with
      | none => none
      | some (.error e) => some (.error e)
      | some (.ok st2) =>
        some (.ok { sorted := st2.sorted ++ [name],
                    visited := name :: st2.visited,
                    visiting := st2.visiting.erase name })

/-- `sortFixtures(fixtures, dependencies)`: run `visit` over the input list.
The `none` branch is dead code: the supplied fuel always suffices
(`sortFixtures_error_spec`). -/
def sortFixtures (fixtures : List String)
    (deps : List (String × List String)) : Except (Err E) (List String) :=
  match chainM (fun n s => visit deps (deps.length + 1) n s) fixtures
      ⟨[], [], []⟩ with
  | none => .error (.circular "")
  | some (.error e) => .error e
  | some (.ok st) => .ok st.sorted

/-! ## The dependency graph builder (the `loadDeps` closure of `setup`) -/

/-- The mutable context of graph building: the `dependencies` map (in
insertion order) and the `toLoad` set (in insertion order). -/
structure GraphSt where
  dependencies : List (String × List String)
  toLoad : List String
  deriving DecidableEq, Repr

/-- The recursive `loadDeps` closure of `setup`: memoised depth-first
discovery of the dependency closure.  `fuel` bounds the recursion depth
(the source recurses through the memo map; fuel `registry.length + 1` is
provably sufficient, see `loadDeps_fuel_sufficient`). -/
def loadDeps (registry : Registry V E) :
    Nat → String → GraphSt → Option (Except (Err E) GraphSt)
  | 0, _, _ => none
  | fuel + 1, n, st =>
    if (lookupKey st.dependencies n).isSome then some (.ok st)
    else
      match getFixture registry n with
      | .error e => some (.error e)
      | .ok fx =>
        chainM
          (fun d s =>
            loadDeps registry fuel d { s with toLoad := insertSet s.toLoad d })
          fx.dependencies
          { st with dependencies := st.dependencies ++ [(n, fx.dependencies)] }

/-- The graph-building phase of `setup`: `toLoad` starts as
`new Set(requested)` and `loadDeps(name)` runs for each requested name.
The `none` branch is dead code (`buildGraph_error_spec`). -/
def buildGraph (registry : Registry V E) (requested : List String) :
    Except (Err E) GraphSt :=
  match chainM (fun n s => loadDeps registry (registry.length + 1) n s)
      requested ⟨[], requested.foldl insertSet []⟩ with
  | none => .error (.notFound "")
  | some (.error e) => .error e
  | some (.ok st) => .ok st

/-! ## The lifecycle orchestrator -/

/-- The `try` block of `setup`: run the sorted fixtures in order, threading
the `values` record, accumulating the pushed cleanups (in push order) and the
event trace, and stopping at the first raised error. -/
def runFixtures (registry : Registry V E) :
    List String → List (String × V) →
    List (String × V) × List (CleanupSpec E) × List (Event V) ×
      Option (Err E)
  | [], vals => (vals, [], [], none)
  | n :: rest, vals =>
    match getFixture registry n with
    | .error e => (vals, [], [], some e)
    | .ok fx =>
      match fx.setup vals with
      | .error e => (vals, [], [Event.setupCall n vals], some (.user e))
      | .ok (v, c) =>
        let r := runFixtures registry rest ((n, v) :: vals)
        (r.1, c :: r.2.1, Event.setupCall n vals :: r.2.2.1, r.2.2.2)

/-- `for (const cleanup of l) await cleanup().catch(() => {})`: invoke every
cleanup in list order; a raised error is caught and ignored, so iteration
always continues.  Shared by the rollback path of `setup` and by
`teardown`. -/
def runCleanupsIgnoringErrors : List (CleanupSpec E) → List (Event V)
  | [] => []
  | c :: rest =>
    match c.fails with
    | some _ => Event.cleanupCall c.label :: runCleanupsIgnoringErrors rest
    | none => Event.cleanupCall c.label :: runCleanupsIgnoringErrors rest

/-- `setup()`: build the graph, sort, then run every fixture in sorted order;
on a raised error, roll back the already-pushed cleanups in reverse order
(errors ignored), clear the instance state and re-throw; on success store the
resolved values and the pending cleanups.  Returns the new instance state, the
event trace and the outcome. -/
def setup (registry : Registry V E) (requested : List String)
    (st : FixState V E) :
    FixState V E × List (Event V) × Except (Err E) Unit :=
  match buildGraph registry requested with
  | .error e => (st, [], .error e)
  | .ok g =>
    match sortFixtures g.toLoad g.dependencies with
    | .error e => (st, [], .error e)
    | .ok sorted =>
      let r := runFixtures registry sorted []
      match r.2.2.2 with
      | none => ({ deps := some r.1, cleanups := r.2.1 }, r.2.2.1, .ok ())
      | some e =>
        (⟨none, []⟩,
         r.2.2.1 ++ runCleanupsIgnoringErrors r.2.1.reverse,
         .error e)

/-- `teardown()`: invoke every pending cleanup in reverse push order, each
error caught and ignored, then clear the instance state.  Never throws. -/
def teardown (st : FixState V E) :
    FixState V E × List (Event V) × Except (Err E) Unit :=
  (⟨none, []⟩, runCleanupsIgnoringErrors st.cleanups.reverse, .ok ())

/-- `get()`: throw `Fixtures not initialized` when `state.deps` is `null`;
otherwise build a record from exactly the requested names (an absent key
yields `undefined`, i.e. `none`).  Pure: the state is not modified. -/
def get (requested : List String) (st : FixState V E) :
    Except (Err E) (List (String × Option V)) :=
  match st.deps with
  | none => .error .notInitialized
  | some vals => .ok (requested.map fun n => (n, lookupKey vals n))

/-- The names whose setup operations a trace invokes, in order. -/
def setupNames {V : Type} : List (Event V) → List String
  | [] => []
  | .setupCall n _ :: rest => n :: setupNames rest
  | .cleanupCall _ :: rest => setupNames rest

/-! ## The specification-side dependency relation -/

/-- One declared dependency edge of the registry: `n`'s fixture declares
`d`. -/
def DepEdge (registry : Registry V E) (n d : String) : Prop :=
  ∃ fx, lookupKey registry n = some fx ∧ d ∈ fx.dependencies

/-- The transitive closure of the requested names under declared dependency
edges: requested names, and every declared dependency of a reachable name
whose fixture exists. -/
inductive Reaches (registry : Registry V E) (requested : List String) :
    String → Prop
  | base {n} : n ∈ requested → Reaches registry requested n
  | step {n d fx} : Reaches registry requested n →
      lookupKey registry n = some fx → d ∈ fx.dependencies →
      Reaches registry requested d

/-! ## Specification-side predicates and invariants -/

/-- One edge of the built dependency map: `a`'s recorded entry contains
`b`. -/
def EdgeOf (deps : List (String × List String)) (a b : String) : Prop :=
  ∃ ds, lookupKey deps a = some ds ∧ b ∈ ds

/-- The depth-first-sort invariant: the output is duplicate-free, the
`visited` set is exactly the output, `visiting` is disjoint from `visited`,
every placed node's recorded dependencies are placed strictly earlier, and
every placed node lies in the universe `U`. -/
def SortInv (deps : List (String × List String)) (U : List String)
    (s : SortSt) : Prop :=
  s.sorted.Nodup ∧
  (∀ x, x ∈ s.visited ↔ x ∈ s.sorted) ∧
  (∀ x ∈ s.visiting, x ∉ s.visited) ∧
  (∀ n ∈ s.sorted, ∀ d, EdgeOf deps n d →
    d ∈ s.sorted ∧ s.sorted.indexOf d < s.sorted.indexOf n) ∧
  (∀ x ∈ s.sorted, x ∈ U)

/-- The graph-building invariant: every recorded entry faithfully copies the
registry's declared dependencies of an existing fixture, and every name queued
in `toLoad` is in the dependency closure of the requested names. -/
def GInv (registry : Registry V E) (requested : List String)
    (s : GraphSt) : Prop :=
  (∀ p ∈ s.dependencies,
    ∃ fx, lookupKey registry p.1 = some fx ∧ p.2 = fx.dependencies) ∧
  (∀ x ∈ s.toLoad, Reaches registry requested x)

/-- The number of distinct mapped names not yet on the `visiting` stack:
an upper bound on the remaining recursion depth of `visit`. -/
def freeKeys (deps : List (String × List String)) (v : List String) : Nat :=
  ((deps.map Prod.fst).dedup.filter (fun x => x ∉ v)).length

/-- The number of distinct registry names with no memo entry yet: an upper
bound on the remaining recursion depth of `loadDeps`. -/
def regFree (registry : Registry V E) (s : GraphSt) : Nat :=
  ((registry.map Prod.fst).dedup.filter
    (fun x => x ∉ s.dependencies.map Prod.fst)).length

/-- The trace discipline of the `try` loop of `setup`: each fixture in turn
has its setup operation invoked with exactly the values record accumulated so
far. -/
def TraceMatches : List String → List (String × V) → List (Event V) → Prop
  | [], _, tr => tr = []
  | n :: rest, vals, tr =>
    ∃ v tr', tr = Event.setupCall n vals :: tr' ∧
      TraceMatches rest ((n, v) :: vals) tr'

/-! ## Concrete example registries (used to witness the theorems) -/

/-- Rollback scenario of the repository's test
`should cleanup already-created fixtures when setup fails`. -/
def fxC2a : AnyFixture String String :=
  ⟨[], fun _ => .ok ("a", ⟨"cleanup1", none⟩)⟩

def fxC2b : AnyFixture String String :=
  ⟨["a"], fun _ => .ok ("b", ⟨"cleanup2", none⟩)⟩

def fxC2c : AnyFixture String String :=
  ⟨["b"], fun _ => .error "setup failed"⟩

def exRegC2 : Registry String String :=
  [("a", fxC2a), ("b", fxC2b), ("c", fxC2c)]

/-- The db/client scenario of the repository's test
`should setup fixture with one dependency`. -/
def fxC3db : AnyFixture String String :=
  ⟨[], fun _ => .ok ("db-instance", ⟨"cl-db", none⟩)⟩

def fxC3client : AnyFixture String String :=
  ⟨["db"], fun vals =>
    .ok ((match lookupKey vals "db" with
          | some v => "client-with-" ++ v
          | none => "client-with-undefined"), ⟨"cl-client", none⟩)⟩

def exRegC3 : Registry String String :=
  [("db", fxC3db), ("client", fxC3client)]

/-- The chain scenario of the repository's test
`should execute cleanup in reverse order`. -/
def fxC4a : AnyFixture String String :=
  ⟨[], fun _ => .ok ("a", ⟨"a-cl", none⟩)⟩

def fxC4b : AnyFixture String String :=
  ⟨["a"], fun _ => .ok ("b", ⟨"b-cl", none⟩)⟩

def fxC4c : AnyFixture String String :=
  ⟨["b"], fun _ => .ok ("c", ⟨"c-cl", none⟩)⟩

def exRegC4 : Registry String String :=
  [("a", fxC4a), ("b", fxC4b), ("c", fxC4c)]

/-- The diamond scenario of the repository's test
`should handle shared dependencies`. -/
def fxC5shared : AnyFixture String String :=
  ⟨[], fun _ => .ok ("shared-value", ⟨"cl-shared", none⟩)⟩

def fxC5foo : AnyFixture String String :=
  ⟨["shared"], fun _ => .ok ("foo", ⟨"cl-foo", none⟩)⟩

def fxC5bar : AnyFixture String String :=
  ⟨["shared"], fun _ => .ok ("bar", ⟨"cl-bar", none⟩)⟩

def exRegC5 : Registry String String :=
  [("shared", fxC5shared), ("foo", fxC5foo), ("bar", fxC5bar)]

/-- The two-cycle scenario of the repository's test
`should throw on circular dependency`. -/
def fxC6a : AnyFixture String String :=
  ⟨["b"], fun _ => .ok ("a", ⟨"ca", none⟩)⟩

def fxC6b : AnyFixture String String :=
  ⟨["a"], fun _ => .ok ("b", ⟨"cb", none⟩)⟩

def exRegC6 : Registry String String := [("a", fxC6a), ("b", fxC6b)]

/-- A fixture declaring a dependency that has no registry entry. -/
def fxC7a : AnyFixture String String :=
  ⟨["missing"], fun _ => .ok ("a", ⟨"ca", none⟩)⟩

def exRegC7 : Registry String String := [("a", fxC7a)]

/-! ## Lemmas about `lookupKey` and `insertSet` -/

theorem lookupKey_isSome_iff {β : Type _} (l : List (String × β)) (k : String) :
    (lookupKey l k).isSome ↔ k ∈ l.map Prod.fst := by
  induction l with
  | nil => simp [lookupKey]
  | cons p rest ih =>
    obtain ⟨k', v⟩ := p
    by_cases h : k' = k <;> simp [lookupKey, h, ih]
    exact fun h' => (h h'.symm).elim

theorem lookupKey_append_left {β : Type _} {l₁ : List (String × β)}
    (l₂ : List (String × β)) {k : String} {v : β}
    (h : lookupKey l₁ k = some v) : lookupKey (l₁ ++ l₂) k = some v := by
  induction l₁ with
  | nil => simp [lookupKey] at h
  | cons p rest ih =>
    obtain ⟨k', v'⟩ := p
    by_cases hk : k' = k <;> simp_all [lookupKey]

theorem lookupKey_append_right {β : Type _} {l₁ : List (String × β)}
    (l₂ : List (String × β)) {k : String}
    (h : lookupKey l₁ k = none) : lookupKey (l₁ ++ l₂) k = lookupKey l₂ k := by
  induction l₁ with
  | nil => simp [lookupKey]
  | cons p rest ih =>
    obtain ⟨k', v'⟩ := p
    by_cases hk : k' = k <;> simp_all [lookupKey]

theorem lookupKey_some_mem {β : Type _} {l : List (String × β)} {k : String}
    {v : β} (h : lookupKey l k = some v) : (k, v) ∈ l := by
  induction l with
  | nil => simp [lookupKey] at h
  | cons p rest ih =>
    obtain ⟨k', v'⟩ := p
    by_cases hk : k' = k
    · subst hk
      simp [lookupKey] at h
      simp [h]
    · simp [lookupKey, hk] at h
      exact List.mem_cons_of_mem _ (ih h)

theorem mem_insertSet {s : List String} {x y : String} :
    y ∈ insertSet s x ↔ y ∈ s ∨ y = x := by
  unfold insertSet
  split
  · rename_i h
    constructor
    · exact Or.inl
    · rintro (h' | rfl)
      · exact h'
      · exact h
  · simp

theorem insertSet_sub (s : List String) (x : String) : s ⊆ insertSet s x := by
  intro y hy; exact mem_insertSet.mpr (Or.inl hy)

theorem mem_insertSet_self (s : List String) (x : String) : x ∈ insertSet s x :=
  mem_insertSet.mpr (Or.inr rfl)

theorem insertSet_nodup {s : List String} (h : s.Nodup) (x : String) :
    (insertSet s x).Nodup := by
  unfold insertSet
  split
  · exact h
  · rename_i hx
    exact List.nodup_append.mpr ⟨h, List.nodup_singleton x, by simpa using hx⟩

theorem foldl_insertSet_mem {xs : List String} {s : List String} {x : String} :
    x ∈ xs.foldl insertSet s ↔ x ∈ s ∨ x ∈ xs := by
  induction xs generalizing s with
  | nil => simp
  | cons a rest ih =>
    simp only [List.foldl_cons, ih, mem_insertSet]
    constructor
    · rintro ((h | rfl) | h)
      · exact Or.inl h
      · exact Or.inr (by simp)
      · exact Or.inr (by simp [h])
    · rintro (h | h)
      · exact Or.inl (Or.inl h)
      · rcases List.mem_cons.mp h with rfl | h'
        · exact Or.inl (Or.inr rfl)
        · exact Or.inr h'

theorem foldl_insertSet_nodup {xs : List String} {s : List String}
    (h : s.Nodup) : (xs.foldl insertSet s).Nodup := by
  induction xs generalizing s with
  | nil => exact h
  | cons a rest ih => exact ih (insertSet_nodup h a)

/-! ## Generic lemmas about `chainM` -/

section ChainM

variable {σ ε : Type _} {f : String → σ → Option (Except ε σ)}
variable {ds : List String} {st st' : σ} {e : ε}

theorem chainM_preserves {R : σ → σ → Prop}
    (hrefl : ∀ s, R s s)
    (htrans : ∀ a b c, R a b → R b c → R a c)
    (hf : ∀ d s s', d ∈ ds → f d s = some (.ok s') → R s s')
    (h : chainM f ds st = some (.ok st')) : R st st' := by
  induction ds generalizing st with
  | nil => simp [chainM] at h; subst h; exact hrefl st
  | cons d rest ih =>
    simp only [chainM] at h
    cases hfd : f d st with
    | none => rw [hfd] at h; exact absurd h (by simp)
    | some r =>
      cases r with
      | error e => rw [hfd] at h; simp at h
      | ok s1 =>
        rw [hfd] at h
        exact htrans _ _ _ (hf d st s1 (by simp) hfd)
          (ih (fun d s s' hd => hf d s s' (by simp [hd])) h)

theorem chainM_all {P : String → σ → Prop}
    (hpost : ∀ d s s', d ∈ ds → f d s = some (.ok s') → P d s')
    (hmono : ∀ x d s s', d ∈ ds → f d s = some (.ok s') → P x s → P x s')
    (h : chainM f ds st = some (.ok st')) : ∀ d ∈ ds, P d st' := by
  induction ds generalizing st with
  | nil => simp
  | cons d rest ih =>
    simp only [chainM] at h
    cases hfd : f d st with
    | none => rw [hfd] at h; exact absurd h (by simp)
    | some r =>
      cases r with
      | error e => rw [hfd] at h; simp at h
      | ok s1 =>
        rw [hfd] at h
        intro x hx
        rcases List.mem_cons.mp hx with rfl | hx'
        · have hstep : P x s1 := hpost x st s1 (by simp) hfd
          exact chainM_preserves (R := fun a b => P x a → P x b)
            (fun _ h => h) (fun _ _ _ h1 h2 h3 => h2 (h1 h3))
            (fun d' s s' hd' hf' hp =>
              hmono x d' s s' (by simp [hd']) hf' hp) h hstep
        · exact ih (fun d' s s' hd' => hpost d' s s' (by simp [hd']))
            (fun x' d' s s' hd' => hmono x' d' s s' (by simp [hd'])) h x hx'

theorem chainM_error_inv {Q : σ → Prop}
    (hInv : ∀ d s s', d ∈ ds → f d s = some (.ok s') → Q s → Q s')
    (h0 : Q st)
    (h : chainM f ds st = some (.error e)) :
    ∃ d s, d ∈ ds ∧ Q s ∧ f d s = some (.error e) := by
  induction ds generalizing st with
  | nil => simp [chainM] at h
  | cons d rest ih =>
    simp only [chainM] at h
    cases hfd : f d st with
    | none => rw [hfd] at h; exact absurd h (by simp)
    | some r =>
      cases r with
      | error e' =>
        rw [hfd] at h
        simp only [Option.some.injEq, Except.error.injEq] at h
        subst h
        exact ⟨d, st, by simp, h0, hfd⟩
      | ok s1 =>
        rw [hfd] at h
        obtain ⟨d', s, hd', hs, hf'⟩ :=
          ih (fun d' s s' hd' => hInv d' s s' (by simp [hd']))
            (hInv d st s1 (by simp) hfd h0) h
        exact ⟨d', s, by simp [hd'], hs, hf'⟩

theorem chainM_none_inv {Q : σ → Prop}
    (hInv : ∀ d s s', d ∈ ds → f d s = some (.ok s') → Q s → Q s')
    (h0 : Q st)
    (h : chainM f ds st = none) :
    ∃ d s, d ∈ ds ∧ Q s ∧ f d s = none := by
  induction ds generalizing st with
  | nil => simp [chainM] at h
  | cons d rest ih =>
    simp only [chainM] at h
    cases hfd : f d st with
    | none => exact ⟨d, st, by simp, h0, hfd⟩
    | some r =>
      cases r with
      | error e' => rw [hfd] at h; simp at h
      | ok s1 =>
        rw [hfd] at h
        obtain ⟨d', s, hd', hs, hf'⟩ :=
          ih (fun d' s s' hd' => hInv d' s s' (by simp [hd']))
            (hInv d st s1 (by simp) hfd h0) h
        exact ⟨d', s, by simp [hd'], hs, hf'⟩

end ChainM

/-! ## Lemmas about `visit` and `sortFixtures` -/



theorem visit_zero {deps : List (String × List String)} {name : String}
    {st : SortSt} : visit (E := E) deps 0 name st = none := rfl

theorem visit_succ_visited {deps : List (String × List String)} {fuel : Nat}
    {name : String} {st : SortSt} (h : name ∈ st.visited) :
    visit (E := E) deps (fuel + 1) name st = some (.ok st) := by
  simp [visit, h]

theorem visit_succ_visiting {deps : List (String × List String)} {fuel : Nat}
    {name : String} {st : SortSt} (h1 : name ∉ st.visited)
    (h2 : name ∈ st.visiting) :
    visit (E := E) deps (fuel + 1) name st =
      some (.error (.circular name)) := by
  simp [visit, h1, h2]

theorem visit_succ_nodeps {deps : List (String × List String)} {fuel : Nat}
    {name : String} {st : SortSt} (h1 : name ∉ st.visited)
    (h2 : name ∉ st.visiting) (h3 : lookupKey deps name = none) :
    visit (E := E) deps (fuel + 1) name st =
      some (.ok { sorted := st.sorted ++ [name],
                  visited := name :: st.visited,
                  visiting := st.visiting }) := by
  simp [visit, h1, h2, h3]

theorem visit_succ_deps {deps : List (String × List String)} {fuel : Nat}
    {name : String} {st : SortSt} {ds : List String} (h1 : name ∉ st.visited)
    (h2 : name ∉ st.visiting) (h3 : lookupKey deps name = some ds) :
    visit (E := E) deps (fuel + 1) name st =
      match chainM (fun d s => visit (E := E) deps fuel d s) ds
          { st with visiting := name :: st.visiting } with
      | none => none
      | some (.error e) => some (.error e)
      | some (.ok st2) =>
        some (.ok { sorted := st2.sorted ++ [name],
                    visited := name :: st2.visited,
                    visiting := st2.visiting.erase name }) := by
  simp [visit, h1, h2, h3]

theorem visit_ok_visiting {deps : List (String × List String)} :
    ∀ (fuel : Nat) (name : String) (st st' : SortSt),
    visit (E := E) deps fuel name st = some (.ok st') →
    st'.visiting = st.visiting := by
  intro fuel
  induction fuel with
  | zero => intro name st st' h; simp [visit_zero] at h
  | succ fuel ih =>
    intro name st st' h
    by_cases h1 : name ∈ st.visited
    · rw [visit_succ_visited h1] at h
      simp at h; subst h; rfl
    by_cases h2 : name ∈ st.visiting
    · rw [visit_succ_visiting h1 h2] at h; simp at h
    cases h3 : lookupKey deps name with
    | none =>
      rw [visit_succ_nodeps h1 h2 h3] at h
      simp at h; subst h; rfl
    | some ds =>
      rw [visit_succ_deps h1 h2 h3] at h
      cases hch : chainM (fun d s => visit (E := E) deps fuel d s) ds
          { st with visiting := name :: st.visiting } with
      | none => rw [hch] at h; simp at h
      | some r =>
        cases r with
        | error e => rw [hch] at h; simp at h
        | ok st2 =>
          rw [hch] at h
          simp only [Option.some.injEq, Except.ok.injEq] at h
          subst h
          have hpres : SortSt.visiting { st with visiting := name :: st.visiting }
              = st2.visiting :=
            chainM_preserves (σ := SortSt) (R := fun a b => a.visiting = b.visiting)
              (fun _ => rfl) (fun (_ _ _ : SortSt) hab hbc => hab.trans hbc)
              (fun d s s' _ hf => (ih d s s' hf).symm) hch
          simp [← hpres]

theorem visit_ok_extends {deps : List (String × List String)} :
    ∀ (fuel : Nat) (name : String) (st st' : SortSt),
    visit (E := E) deps fuel name st = some (.ok st') →
    st.visited ⊆ st'.visited ∧ st.sorted <+: st'.sorted := by
  intro fuel
  induction fuel with
  | zero => intro name st st' h; simp [visit_zero] at h
  | succ fuel ih =>
    intro name st st' h
    by_cases h1 : name ∈ st.visited
    · rw [visit_succ_visited h1] at h
      simp at h; subst h
      exact ⟨fun _ hx => hx, List.prefix_rfl⟩
    by_cases h2 : name ∈ st.visiting
    · rw [visit_succ_visiting h1 h2] at h; simp at h
    cases h3 : lookupKey deps name with
    | none =>
      rw [visit_succ_nodeps h1 h2 h3] at h
      simp at h; subst h
      exact ⟨fun x hx => List.mem_cons_of_mem _ hx, List.prefix_append _ _⟩
    | some ds =>
      rw [visit_succ_deps h1 h2 h3] at h
      cases hch : chainM (fun d s => visit (E := E) deps fuel d s) ds
          { st with visiting := name :: st.visiting } with
      | none => rw [hch] at h; simp at h
      | some r =>
        cases r with
        | error e => rw [hch] at h; simp at h
        | ok st2 =>
          rw [hch] at h
          simp only [Option.some.injEq, Except.ok.injEq] at h
          subst h
          have hext : SortSt.visited { st with visiting := name :: st.visiting }
                ⊆ st2.visited ∧
              SortSt.sorted { st with visiting := name :: st.visiting }
                <+: st2.sorted :=
            chainM_preserves (σ := SortSt)
              (R := fun a b => a.visited ⊆ b.visited ∧ a.sorted <+: b.sorted)
              (fun s => ⟨fun _ hx => hx, List.prefix_rfl⟩)
              (fun (_ _ _ : SortSt) hab hbc => ⟨hab.1.trans hbc.1, hab.2.trans hbc.2⟩)
              (fun d s s' _ hf => ih d s s' hf) hch
          exact ⟨fun x hx => List.mem_cons_of_mem _ (hext.1 hx),
            hext.2.trans (List.prefix_append _ _)⟩

theorem visit_ok_mem {deps : List (String × List String)} :
    ∀ (fuel : Nat) (name : String) (st st' : SortSt),
    visit (E := E) deps fuel name st = some (.ok st') →
    name ∈ st'.visited := by
  intro fuel
  induction fuel with
  | zero => intro name st st' h; simp [visit_zero] at h
  | succ fuel ih =>
    intro name st st' h
    by_cases h1 : name ∈ st.visited
    · rw [visit_succ_visited h1] at h
      simp at h; subst h; exact h1
    by_cases h2 : name ∈ st.visiting
    · rw [visit_succ_visiting h1 h2] at h; simp at h
    cases h3 : lookupKey deps name with
    | none =>
      rw [visit_succ_nodeps h1 h2 h3] at h
      simp at h; subst h; simp
    | some ds =>
      rw [visit_succ_deps h1 h2 h3] at h
      cases hch : chainM (fun d s => visit (E := E) deps fuel d s) ds
          { st with visiting := name :: st.visiting } with
      | none => rw [hch] at h; simp at h
      | some r =>
        cases r with
        | error e => rw [hch] at h; simp at h
        | ok st2 =>
          rw [hch] at h
          simp only [Option.some.injEq, Except.ok.injEq] at h
          subst h; simp



theorem visit_ok_inv {deps : List (String × List String)} {U : List String}
    (HU : ∀ p ∈ deps, ∀ d ∈ p.2, d ∈ U) :
    ∀ (fuel : Nat) (name : String) (st st' : SortSt), name ∈ U →
    SortInv deps U st → visit (E := E) deps fuel name st = some (.ok st') →
    SortInv deps U st' := by
  intro fuel
  induction fuel with
  | zero => intro name st st' _ _ h; simp [visit_zero] at h
  | succ fuel ih =>
    intro name st st' hnameU hinv h
    by_cases h1 : name ∈ st.visited
    · rw [visit_succ_visited h1] at h
      simp at h; subst h; exact hinv
    by_cases h2 : name ∈ st.visiting
    · rw [visit_succ_visiting h1 h2] at h; simp at h
    have hinvIn : SortInv deps U { st with visiting := name :: st.visiting } := by
      obtain ⟨hnd, hvs, hdisj, htopo, hU⟩ := hinv
      refine ⟨hnd, hvs, ?_, htopo, hU⟩
      intro x hx
      rcases List.mem_cons.mp hx with rfl | hx'
      · exact h1
      · exact hdisj x hx'
    cases h3 : lookupKey deps name with
    | none =>
      rw [visit_succ_nodeps h1 h2 h3] at h
      simp only [Option.some.injEq, Except.ok.injEq] at h
      subst h
      obtain ⟨hnd, hvs, hdisj, htopo, hU⟩ := hinv
      have hnameNotSorted : name ∉ st.sorted := fun hm => h1 ((hvs name).mpr hm)
      refine ⟨?_, ?_, ?_, ?_, ?_⟩
      · simp only [List.nodup_append]
        exact ⟨hnd, List.nodup_singleton _, by simpa using hnameNotSorted⟩
      · intro x; simp [hvs x, or_comm]
      · intro x hx
        simp only [List.mem_cons, not_or]
        exact ⟨fun hxn => h2 (hxn ▸ hx), hdisj x hx⟩
      · intro n hn d hedge
        rcases List.mem_append.mp hn with hn' | hn'
        · obtain ⟨hd1, hd2⟩ := htopo n hn' d hedge
          refine ⟨List.mem_append_left _ hd1, ?_⟩
          rw [List.indexOf_append_of_mem hd1, List.indexOf_append_of_mem hn']
          exact hd2
        · have : n = name := by simpa using hn'
          subst this
          obtain ⟨ds', hlk', _⟩ := hedge
          rw [h3] at hlk'; exact absurd hlk' (by simp)
      · intro x hx
        rcases List.mem_append.mp hx with hx' | hx'
        · exact hU x hx'
        · have : x = name := by simpa using hx'
          exact this ▸ hnameU
    | some ds =>
      rw [visit_succ_deps h1 h2 h3] at h
      cases hch : chainM (fun d s => visit (E := E) deps fuel d s) ds
          { st with visiting := name :: st.visiting } with
      | none => rw [hch] at h; simp at h
      | some r =>
        cases r with
        | error e => rw [hch] at h; simp at h
        | ok st2 =>
          rw [hch] at h
          simp only [Option.some.injEq, Except.ok.injEq] at h
          subst h
          have hdsU : ∀ d ∈ ds, d ∈ U :=
            fun d hd => HU _ (lookupKey_some_mem h3) d hd
          have hInv2 : SortInv deps U st2 ∧
              st2.visiting = name :: st.visiting := by
            have := chainM_preserves (σ := SortSt)
              (R := fun a b =>
                (SortInv deps U a → SortInv deps U b) ∧
                a.visiting = b.visiting)
              (fun s => ⟨id, rfl⟩)
              (fun (_ _ _ : SortSt) hab hbc =>
                ⟨fun hx => hbc.1 (hab.1 hx), hab.2.trans hbc.2⟩)
              (fun d s s' hd hvis =>
                ⟨fun hs => ih d s s' (hdsU d hd) hs hvis,
                 (visit_ok_visiting fuel d s s' hvis).symm⟩) hch
            exact ⟨this.1 hinvIn, this.2.symm⟩
          have hmem_ds : ∀ d ∈ ds, d ∈ st2.visited :=
            chainM_all (σ := SortSt) (P := fun d s => d ∈ s.visited)
              (fun d s s' _ hvis => visit_ok_mem fuel d s s' hvis)
              (fun x d s s' _ hvis hx =>
                (visit_ok_extends fuel d s s' hvis).1 hx) hch
          obtain ⟨⟨hnd, hvs, hdisj, htopo, hU⟩, hvq⟩ := hInv2
          have hnameVg2 : name ∈ st2.visiting := by rw [hvq]; simp
          have hnameNotVisited2 : name ∉ st2.visited := hdisj name hnameVg2
          have hnameNotSorted2 : name ∉ st2.sorted :=
            fun hm => hnameNotVisited2 ((hvs name).mpr hm)
          have herase : st2.visiting.erase name = st.visiting := by
            rw [hvq]; exact List.erase_cons_head name st.visiting
          refine ⟨?_, ?_, ?_, ?_, ?_⟩
          · simp only [List.nodup_append]
            exact ⟨hnd, List.nodup_singleton _, by simpa using hnameNotSorted2⟩
          · intro x; simp [hvs x, or_comm]
          · intro x hx
            rw [herase] at hx
            simp only [List.mem_cons, not_or]
            refine ⟨fun hxn => h2 (hxn ▸ hx), ?_⟩
            exact hdisj x (by rw [hvq]; exact List.mem_cons_of_mem _ hx)
          · intro n hn d hedge
            rcases List.mem_append.mp hn with hn' | hn'
            · obtain ⟨hd1, hd2⟩ := htopo n hn' d hedge
              refine ⟨List.mem_append_left _ hd1, ?_⟩
              rw [List.indexOf_append_of_mem hd1, List.indexOf_append_of_mem hn']
              exact hd2
            · have : n = name := by simpa using hn'
              subst this
              obtain ⟨ds', hlk', hd'⟩ := hedge
              rw [h3] at hlk'
              have hds' : ds' = ds := by
                have := hlk'.symm
                simpa using this
              subst hds'
              have hdv : d ∈ st2.sorted := (hvs d).mp (hmem_ds d hd')
              refine ⟨List.mem_append_left _ hdv, ?_⟩
              rw [List.indexOf_append_of_mem hdv,
                List.indexOf_append_of_not_mem hnameNotSorted2]
              have : List.indexOf n [n] = 0 := List.indexOf_cons_self n []
              rw [this, Nat.add_zero]
              exact List.indexOf_lt_length.mpr hdv
          · intro x hx
            rcases List.mem_append.mp hx with hx' | hx'
            · exact hU x hx'
            · have : x = name := by simpa using hx'
              exact this ▸ hnameU

/-- Soundness of `sortFixtures`: on success (over a dependency map whose
recorded dependency names all lie in the input list), the output is
duplicate-free, has exactly the input's elements, and places every recorded
dependency strictly before its dependent. -/
theorem sortFixtures_ok_spec {fixtures : List String}
    {deps : List (String × List String)} {sorted : List String}
    (HU : ∀ p ∈ deps, ∀ d ∈ p.2, d ∈ fixtures)
    (h : sortFixtures (E := E) fixtures deps = .ok sorted) :
    sorted.Nodup ∧ (∀ x, x ∈ sorted ↔ x ∈ fixtures) ∧
    (∀ n ∈ sorted, ∀ d, EdgeOf deps n d →
      d ∈ sorted ∧ sorted.indexOf d < sorted.indexOf n) := by
  unfold sortFixtures at h
  cases hch : chainM
      (fun n s => visit (E := E) deps (deps.length + 1) n s) fixtures
      ⟨[], [], []⟩ with
  | none => rw [hch] at h; simp at h
  | some r =>
    cases r with
    | error e => rw [hch] at h; simp at h
    | ok stF =>
      rw [hch] at h
      simp only [Except.ok.injEq] at h
      subst h
      have hinv0 : SortInv deps fixtures ⟨[], [], []⟩ := by
        refine ⟨List.nodup_nil, by simp, by simp, by simp, by simp⟩
      have hinvF : SortInv deps fixtures stF := by
        have := chainM_preserves (σ := SortSt)
          (R := fun a b => SortInv deps fixtures a → SortInv deps fixtures b)
          (fun s => id) (fun (_ _ _ : SortSt) hab hbc hx => hbc (hab hx))
          (fun n s s' hn hvis hs =>
            visit_ok_inv HU _ n s s' hn hs hvis) hch
        exact this hinv0
      have hall : ∀ n ∈ fixtures, n ∈ stF.visited :=
        chainM_all (σ := SortSt) (P := fun n s => n ∈ s.visited)
          (fun n s s' _ hvis => visit_ok_mem _ n s s' hvis)
          (fun x n s s' _ hvis hx => (visit_ok_extends _ n s s' hvis).1 hx)
          hch
      obtain ⟨hnd, hvs, _, htopo, hU⟩ := hinvF
      exact ⟨hnd,
        fun x => ⟨fun hx => hU x hx, fun hx => (hvs x).mp (hall x hx)⟩,
        htopo⟩

/-- Walking down a `visiting` stack follows dependency edges: any member of
the stack reaches the top of the stack through `EdgeOf` edges. -/
theorem chain_mem_rtg {deps : List (String × List String)} :
    ∀ (t : List String) (h : String),
    List.Chain' (fun a b => EdgeOf deps b a) (h :: t) →
    ∀ n ∈ h :: t, Relation.ReflTransGen (EdgeOf deps) n h := by
  intro t
  induction t with
  | nil =>
    intro h _ n hn
    have : n = h := by simpa using hn
    exact this ▸ Relation.ReflTransGen.refl
  | cons h' t' ih =>
    intro h hchain n hn
    have hcc := List.chain'_cons.mp hchain
    rcases List.mem_cons.mp hn with rfl | hn'
    · exact Relation.ReflTransGen.refl
    · exact (ih h' hcc.2 n hn').tail hcc.1

/-- A raised sort error is always `circular`, and the node it names lies on a
genuine dependency cycle of the recorded edges. -/
theorem visit_error_circular {deps : List (String × List String)} :
    ∀ (fuel : Nat) (name : String) (st : SortSt) (e : Err E),
    visit (E := E) deps fuel name st = some (.error e) →
    List.Chain' (fun a b => EdgeOf deps b a) st.visiting →
    (st.visiting = [] ∨
      ∃ h t, st.visiting = h :: t ∧ EdgeOf deps h name) →
    ∃ c, e = .circular c ∧ Relation.TransGen (EdgeOf deps) c c := by
  intro fuel
  induction fuel with
  | zero => intro name st e h; simp [visit_zero] at h
  | succ fuel ih =>
    intro name st e h hchain harg
    by_cases h1 : name ∈ st.visited
    · rw [visit_succ_visited h1] at h; simp at h
    by_cases h2 : name ∈ st.visiting
    · rw [visit_succ_visiting h1 h2] at h
      simp only [Option.some.injEq, Except.error.injEq] at h
      subst h
      rcases harg with hnil | ⟨hd, tl, hv, hedge⟩
      · rw [hnil] at h2; simp at h2
      · refine ⟨name, rfl, ?_⟩
        rw [hv] at h2 hchain
        exact Relation.TransGen.tail' (chain_mem_rtg tl hd hchain name h2) hedge
    cases h3 : lookupKey deps name with
    | none => rw [visit_succ_nodeps h1 h2 h3] at h; simp at h
    | some ds =>
      rw [visit_succ_deps h1 h2 h3] at h
      cases hch : chainM (fun d s => visit (E := E) deps fuel d s) ds
          { st with visiting := name :: st.visiting } with
      | none => rw [hch] at h; simp at h
      | some r =>
        cases r with
        | ok st2 => rw [hch] at h; simp at h
        | error e' =>
          rw [hch] at h
          simp only [Option.some.injEq, Except.error.injEq] at h
          subst h
          obtain ⟨d, s, hd, hs, hvis⟩ := chainM_error_inv (σ := SortSt)
            (Q := fun s => s.visiting = name :: st.visiting)
            (fun d' s s' _ hvis hInv =>
              (visit_ok_visiting fuel d' s s' hvis).trans hInv)
            rfl hch
          have hchain' : List.Chain' (fun a b => EdgeOf deps b a) s.visiting := by
            rw [hs]
            rcases harg with hnil | ⟨hd', tl, hv, hedge⟩
            · rw [hnil]; simp
            · rw [hv]
              rw [hv] at hchain
              exact List.chain'_cons.mpr ⟨hedge, hchain⟩
          exact ih d s e' hvis hchain'
            (Or.inr ⟨name, st.visiting, hs, ds, h3, hd⟩)

/-- Removing a fresh element from the exclusion set enlarges the filtered
count by exactly one. -/
theorem filter_cons_length {v : List String} {a : String} :
    ∀ (l : List String), l.Nodup → a ∈ l → a ∉ v →
    (l.filter (fun x => x ∉ a :: v)).length + 1 =
    (l.filter (fun x => x ∉ v)).length := by
  intro l
  induction l with
  | nil => simp
  | cons b rest ih =>
    intro hnd hmem hnv
    by_cases hbn : b = a
    · subst hbn
      have hbrest : b ∉ rest := (List.nodup_cons.mp hnd).1
      simp [List.filter_cons, hnv]
      apply congrArg List.length
      apply List.filter_congr
      intro x hx
      have hxb : x ≠ b := fun hh => hbrest (hh ▸ hx)
      simp [hxb]
    · have hmem' : a ∈ rest := by
        rcases List.mem_cons.mp hmem with h | h
        · exact absurd h.symm hbn
        · exact h
      have hrest := ih (List.nodup_cons.mp hnd).2 hmem' hnv
      by_cases hbv : b ∈ v
      · simpa [List.filter_cons, hbv] using hrest
      · have hc1 : b ∉ a :: v := by simp [hbv, hbn]
        simp at hrest
        simp [List.filter_cons, hc1, hbv, hbn]
        omega



/-- `visit` cannot run out of fuel once the fuel exceeds the number of
mapped names not yet being visited: each level of recursion pushes a fresh
mapped name onto the `visiting` stack. -/
theorem visit_fuel_sufficient {deps : List (String × List String)} :
    ∀ (fuel : Nat) (name : String) (st : SortSt),
    freeKeys deps st.visiting < fuel →
    visit (E := E) deps fuel name st ≠ none := by
  intro fuel
  induction fuel with
  | zero => intro name st h; omega
  | succ fuel ih =>
    intro name st hfuel h
    by_cases h1 : name ∈ st.visited
    · rw [visit_succ_visited h1] at h; simp at h
    by_cases h2 : name ∈ st.visiting
    · rw [visit_succ_visiting h1 h2] at h; simp at h
    cases h3 : lookupKey deps name with
    | none => rw [visit_succ_nodeps h1 h2 h3] at h; simp at h
    | some ds =>
      rw [visit_succ_deps h1 h2 h3] at h
      cases hch : chainM (fun d s => visit (E := E) deps fuel d s) ds
          { st with visiting := name :: st.visiting } with
      | none =>
        obtain ⟨d, s, _, hs, hvis⟩ := chainM_none_inv (σ := SortSt)
          (Q := fun s => s.visiting = name :: st.visiting)
          (fun d' s s' _ hvis hInv =>
            (visit_ok_visiting fuel d' s s' hvis).trans hInv)
          rfl hch
        have hkey : name ∈ (deps.map Prod.fst).dedup :=
          List.mem_dedup.mpr ((lookupKey_isSome_iff deps name).mp (by
            simp [h3]))
        have hcount := filter_cons_length (v := st.visiting) (a := name)
          (deps.map Prod.fst).dedup (List.nodup_dedup _) hkey h2
        have : freeKeys deps s.visiting < fuel := by
          rw [hs]
          unfold freeKeys at hfuel ⊢
          omega
        exact ih d s this hvis
      | some r =>
        cases r with
        | error e => rw [hch] at h; simp at h
        | ok st2 => rw [hch] at h; simp at h

/-- A failing `sortFixtures` always fails with a `circular` error naming a
node on a genuine cycle of the recorded edges (in particular, the
fuel-exhaustion branch is dead code). -/
theorem sortFixtures_error_spec {fixtures : List String}
    {deps : List (String × List String)} {e : Err E}
    (h : sortFixtures (E := E) fixtures deps = .error e) :
    ∃ c, e = .circular c ∧ Relation.TransGen (EdgeOf deps) c c := by
  unfold sortFixtures at h
  cases hch : chainM
      (fun n s => visit (E := E) deps (deps.length + 1) n s) fixtures
      ⟨[], [], []⟩ with
  | none =>
    obtain ⟨n, s, _, hs, hvis⟩ := chainM_none_inv (σ := SortSt)
      (Q := fun s => s.visiting = [])
      (fun d' s s' _ hvis hInv =>
        (visit_ok_visiting _ d' s s' hvis).trans hInv)
      rfl hch
    exfalso
    apply visit_fuel_sufficient (deps.length + 1) n s _ hvis
    have hle : ((deps.map Prod.fst).dedup.filter
        (fun x => x ∉ s.visiting)).length ≤ deps.length := by
      calc ((deps.map Prod.fst).dedup.filter
            (fun x => x ∉ s.visiting)).length
          ≤ (deps.map Prod.fst).dedup.length :=
            (List.filter_sublist _).length_le
        _ ≤ (deps.map Prod.fst).length :=
            (List.dedup_sublist _).length_le
        _ = deps.length := List.length_map _ _
    unfold freeKeys
    omega
  | some r =>
    cases r with
    | ok stF => rw [hch] at h; simp at h
    | error e' =>
      rw [hch] at h
      simp only [Except.error.injEq] at h
      subst h
      obtain ⟨n, s, _, hs, hvis⟩ := chainM_error_inv (σ := SortSt)
        (Q := fun s => s.visiting = [])
        (fun d' s s' _ hvis hInv =>
          (visit_ok_visiting _ d' s s' hvis).trans hInv)
        rfl hch
      exact visit_error_circular _ n s e' hvis (by rw [hs]; simp)
        (Or.inl hs)

/-! ## Lemmas about `loadDeps` and `buildGraph` -/

theorem insertSet_grows (s : List String) (x : String) :
    s <+: insertSet s x := by
  unfold insertSet
  split
  · exact List.prefix_rfl
  · exact List.prefix_append _ _

theorem lookupKey_prefix_some {β : Type _} {l l' : List (String × β)}
    (h : l <+: l') {k : String} {v : β} (hk : lookupKey l k = some v) :
    lookupKey l' k = some v := by
  obtain ⟨t, rfl⟩ := h
  exact lookupKey_append_left t hk

theorem lookupKey_prefix_isSome {β : Type _} {l l' : List (String × β)}
    (h : l <+: l') {k : String} (hk : (lookupKey l k).isSome) :
    (lookupKey l' k).isSome := by
  cases hv : lookupKey l k with
  | none => rw [hv] at hk; simp at hk
  | some v => simp [lookupKey_prefix_some h hv]

theorem loadDeps_zero {registry : Registry V E} {n : String} {st : GraphSt} :
    loadDeps registry 0 n st = none := rfl

theorem loadDeps_succ_memo {registry : Registry V E} {fuel : Nat} {n : String}
    {st : GraphSt} (h : (lookupKey st.dependencies n).isSome) :
    loadDeps registry (fuel + 1) n st = some (.ok st) := by
  simp [loadDeps, h]

theorem loadDeps_succ_missing {registry : Registry V E} {fuel : Nat}
    {n : String} {st : GraphSt} (h1 : ¬(lookupKey st.dependencies n).isSome)
    (h2 : lookupKey registry n = none) :
    loadDeps registry (fuel + 1) n st = some (.error (.notFound n)) := by
  simp [loadDeps, getFixture, h1, h2]

theorem loadDeps_succ_go {registry : Registry V E} {fuel : Nat} {n : String}
    {st : GraphSt} {fx : AnyFixture V E}
    (h1 : ¬(lookupKey st.dependencies n).isSome)
    (h2 : lookupKey registry n = some fx) :
    loadDeps registry (fuel + 1) n st =
      chainM (fun d s =>
          loadDeps registry fuel d { s with toLoad := insertSet s.toLoad d })
        fx.dependencies
        { st with dependencies := st.dependencies ++ [(n, fx.dependencies)] }
    := by
  simp [loadDeps, getFixture, h1, h2]

theorem loadDeps_ok_extends {registry : Registry V E} :
    ∀ (fuel : Nat) (n : String) (s s' : GraphSt),
    loadDeps registry fuel n s = some (.ok s') →
    s.dependencies <+: s'.dependencies ∧ s.toLoad <+: s'.toLoad := by
  intro fuel
  induction fuel with
  | zero => intro n s s' h; simp [loadDeps_zero] at h
  | succ fuel ih =>
    intro n s s' h
    by_cases h1 : (lookupKey s.dependencies n).isSome
    · rw [loadDeps_succ_memo h1] at h
      simp at h; subst h
      exact ⟨List.prefix_rfl, List.prefix_rfl⟩
    cases h2 : lookupKey registry n with
    | none => rw [loadDeps_succ_missing h1 h2] at h; simp at h
    | some fx =>
      rw [loadDeps_succ_go h1 h2] at h
      have hext : GraphSt.dependencies
            { s with dependencies := s.dependencies ++ [(n, fx.dependencies)] }
            <+: s'.dependencies ∧
          GraphSt.toLoad
            { s with dependencies := s.dependencies ++ [(n, fx.dependencies)] }
            <+: s'.toLoad :=
        chainM_preserves (σ := GraphSt)
          (R := fun a b =>
            a.dependencies <+: b.dependencies ∧ a.toLoad <+: b.toLoad)
          (fun s => ⟨List.prefix_rfl, List.prefix_rfl⟩)
          (fun (_ _ _ : GraphSt) hab hbc =>
            ⟨hab.1.trans hbc.1, hab.2.trans hbc.2⟩)
          (fun d t t' _ hf =>
            have hrec := ih d { t with toLoad := insertSet t.toLoad d } t' hf
            ⟨hrec.1, (insertSet_grows t.toLoad d).trans hrec.2⟩) h
      exact ⟨(List.prefix_append _ _).trans hext.1, hext.2⟩

theorem loadDeps_ok_nodup {registry : Registry V E} :
    ∀ (fuel : Nat) (n : String) (s s' : GraphSt),
    loadDeps registry fuel n s = some (.ok s') →
    s.toLoad.Nodup → s'.toLoad.Nodup := by
  intro fuel
  induction fuel with
  | zero => intro n s s' h; simp [loadDeps_zero] at h
  | succ fuel ih =>
    intro n s s' h hnd
    by_cases h1 : (lookupKey s.dependencies n).isSome
    · rw [loadDeps_succ_memo h1] at h
      simp at h; subst h; exact hnd
    cases h2 : lookupKey registry n with
    | none => rw [loadDeps_succ_missing h1 h2] at h; simp at h
    | some fx =>
      rw [loadDeps_succ_go h1 h2] at h
      have := chainM_preserves (σ := GraphSt)
        (R := fun a b => a.toLoad.Nodup → b.toLoad.Nodup)
        (fun s => id) (fun (_ _ _ : GraphSt) hab hbc hx => hbc (hab hx))
        (fun d t t' _ hf hx =>
          ih d _ t' hf (insertSet_nodup hx d)) h
      exact this hnd

theorem loadDeps_ok_mem {registry : Registry V E} :
    ∀ (fuel : Nat) (n : String) (s s' : GraphSt),
    loadDeps registry fuel n s = some (.ok s') →
    (lookupKey s'.dependencies n).isSome := by
  intro fuel
  induction fuel with
  | zero => intro n s s' h; simp [loadDeps_zero] at h
  | succ fuel ih =>
    intro n s s' h
    by_cases h1 : (lookupKey s.dependencies n).isSome
    · rw [loadDeps_succ_memo h1] at h
      simp at h; subst h; exact h1
    cases h2 : lookupKey registry n with
    | none => rw [loadDeps_succ_missing h1 h2] at h; simp at h
    | some fx =>
      rw [loadDeps_succ_go h1 h2] at h
      have hpre := chainM_preserves (σ := GraphSt)
        (R := fun a b => a.dependencies <+: b.dependencies)
        (fun s => List.prefix_rfl)
        (fun (_ _ _ : GraphSt) hab hbc => hab.trans hbc)
        (fun d t t' _ hf =>
          (loadDeps_ok_extends fuel d { t with toLoad := insertSet t.toLoad d }
            t' hf).1) h
      apply lookupKey_prefix_isSome hpre
      cases hv : lookupKey s.dependencies n with
      | none =>
        simp [lookupKey_append_right [(n, fx.dependencies)] hv, lookupKey]
      | some v => rw [hv] at h1; simp at h1



theorem loadDeps_ok_inv {registry : Registry V E} {requested : List String} :
    ∀ (fuel : Nat) (n : String) (s s' : GraphSt),
    Reaches registry requested n →
    loadDeps registry fuel n s = some (.ok s') →
    GInv registry requested s → GInv registry requested s' := by
  intro fuel
  induction fuel with
  | zero => intro n s s' _ h; simp [loadDeps_zero] at h
  | succ fuel ih =>
    intro n s s' hn h hinv
    by_cases h1 : (lookupKey s.dependencies n).isSome
    · rw [loadDeps_succ_memo h1] at h
      simp at h; subst h; exact hinv
    cases h2 : lookupKey registry n with
    | none => rw [loadDeps_succ_missing h1 h2] at h; simp at h
    | some fx =>
      rw [loadDeps_succ_go h1 h2] at h
      have hinv1 : GInv registry requested
          { s with dependencies := s.dependencies ++ [(n, fx.dependencies)] }
          := by
        obtain ⟨hed, htl⟩ := hinv
        refine ⟨?_, htl⟩
        intro p hp
        rcases List.mem_append.mp hp with hp' | hp'
        · exact hed p hp'
        · have : p = (n, fx.dependencies) := by simpa using hp'
          exact this ▸ ⟨fx, h2, rfl⟩
      have := chainM_preserves (σ := GraphSt)
        (R := fun a b => GInv registry requested a → GInv registry requested b)
        (fun s => id) (fun (_ _ _ : GraphSt) hab hbc hx => hbc (hab hx))
        (fun d t t' hd hf hGt => by
          have hrd : Reaches registry requested d := hn.step h2 hd
          refine ih d { t with toLoad := insertSet t.toLoad d } t' hrd hf ?_
          obtain ⟨hed, htl⟩ := hGt
          refine ⟨hed, ?_⟩
          intro x hx
          rcases mem_insertSet.mp hx with hx' | rfl
          · exact htl x hx'
          · exact hrd) h
      exact this hinv1

theorem loadDeps_ok_range {registry : Registry V E} :
    ∀ (fuel : Nat) (n : String) (s s' : GraphSt),
    loadDeps registry fuel n s = some (.ok s') →
    ∀ p ∈ s'.dependencies,
      p ∈ s.dependencies ∨ ∀ d ∈ p.2, d ∈ s'.toLoad := by
  intro fuel
  induction fuel with
  | zero => intro n s s' h; simp [loadDeps_zero] at h
  | succ fuel ih =>
    intro n s s' h
    by_cases h1 : (lookupKey s.dependencies n).isSome
    · rw [loadDeps_succ_memo h1] at h
      simp at h; subst h
      exact fun p hp => Or.inl hp
    cases h2 : lookupKey registry n with
    | none => rw [loadDeps_succ_missing h1 h2] at h; simp at h
    | some fx =>
      rw [loadDeps_succ_go h1 h2] at h
      have hR : (∀ p ∈ s'.dependencies,
            p ∈ s.dependencies ++ [(n, fx.dependencies)] ∨
            ∀ d ∈ p.2, d ∈ s'.toLoad) ∧
          GraphSt.toLoad
            { s with dependencies := s.dependencies ++ [(n, fx.dependencies)] }
            ⊆ s'.toLoad := by
        have := chainM_preserves (σ := GraphSt)
          (R := fun a b =>
            (∀ p ∈ b.dependencies,
              p ∈ a.dependencies ∨ ∀ d ∈ p.2, d ∈ b.toLoad) ∧
            a.toLoad ⊆ b.toLoad)
          (fun s => ⟨fun p hp => Or.inl hp, fun _ hx => hx⟩)
          (fun (_ _ _ : GraphSt) hab hbc =>
            ⟨fun p hp => by
              rcases hbc.1 p hp with hp' | hp'
              · rcases hab.1 p hp' with hp'' | hp''
                · exact Or.inl hp''
                · exact Or.inr fun d hd => hbc.2 (hp'' d hd)
              · exact Or.inr hp',
             fun x hx => hbc.2 (hab.2 hx)⟩)
          (fun d t t' _ hf =>
            have hrec := ih d { t with toLoad := insertSet t.toLoad d } t' hf
            have hext := loadDeps_ok_extends fuel d
              { t with toLoad := insertSet t.toLoad d } t' hf
            ⟨hrec, fun x hx =>
              hext.2.subset (insertSet_sub t.toLoad d hx)⟩) h
        exact this
      intro p hp
      rcases hR.1 p hp with hp' | hp'
      · rcases List.mem_append.mp hp' with hp'' | hp''
        · exact Or.inl hp''
        · have hpn : p = (n, fx.dependencies) := by simpa using hp''
          subst hpn
          refine Or.inr ?_
          have hall : ∀ d ∈ fx.dependencies, d ∈ s'.toLoad :=
            chainM_all (σ := GraphSt) (P := fun d t => d ∈ t.toLoad)
              (fun d t t' _ hf =>
                (loadDeps_ok_extends fuel d
                  { t with toLoad := insertSet t.toLoad d } t' hf).2.subset
                  (mem_insertSet_self t.toLoad d))
              (fun x d t t' _ hf hx =>
                (loadDeps_ok_extends fuel d
                  { t with toLoad := insertSet t.toLoad d } t' hf).2.subset
                  (insertSet_sub t.toLoad d hx)) h
          exact hall
      · exact Or.inr hp'

theorem loadDeps_ok_keys_cover {registry : Registry V E} (P : List String) :
    ∀ (fuel : Nat) (n : String) (s s' : GraphSt),
    loadDeps registry fuel n s = some (.ok s') →
    (∀ x ∈ s.toLoad, x = n ∨ x ∈ P ∨ (lookupKey s.dependencies x).isSome) →
    ∀ x ∈ s'.toLoad, x ∈ P ∨ (lookupKey s'.dependencies x).isSome := by
  intro fuel
  induction fuel with
  | zero => intro n s s' h; simp [loadDeps_zero] at h
  | succ fuel ih =>
    intro n s s' h hcov
    by_cases h1 : (lookupKey s.dependencies n).isSome
    · rw [loadDeps_succ_memo h1] at h
      simp at h; subst h
      intro x hx
      rcases hcov x hx with rfl | hx' | hx'
      · exact Or.inr h1
      · exact Or.inl hx'
      · exact Or.inr hx'
    cases h2 : lookupKey registry n with
    | none => rw [loadDeps_succ_missing h1 h2] at h; simp at h
    | some fx =>
      rw [loadDeps_succ_go h1 h2] at h
      have hlkn : (lookupKey
          (s.dependencies ++ [(n, fx.dependencies)]) n).isSome := by
        cases hv : lookupKey s.dependencies n with
        | none =>
          rw [lookupKey_append_right _ hv]
          simp [lookupKey]
        | some v => rw [hv] at h1; simp at h1
      have hInv1 : ∀ x ∈ GraphSt.toLoad
          { s with dependencies := s.dependencies ++ [(n, fx.dependencies)] },
          x ∈ P ∨ (lookupKey
            (GraphSt.dependencies { s with
              dependencies := s.dependencies ++ [(n, fx.dependencies)] })
            x).isSome := by
        intro x hx
        rcases hcov x hx with rfl | hx' | hx'
        · exact Or.inr hlkn
        · exact Or.inl hx'
        · exact Or.inr (lookupKey_prefix_isSome (List.prefix_append _ _) hx')
      have := chainM_preserves (σ := GraphSt)
        (R := fun a b =>
          (∀ x ∈ a.toLoad, x ∈ P ∨ (lookupKey a.dependencies x).isSome) →
          (∀ x ∈ b.toLoad, x ∈ P ∨ (lookupKey b.dependencies x).isSome))
        (fun s => id) (fun (_ _ _ : GraphSt) hab hbc hx => hbc (hab hx))
        (fun d t t' _ hf hcovt => by
          refine ih d { t with toLoad := insertSet t.toLoad d } t' hf ?_
          intro x hx
          rcases mem_insertSet.mp hx with hx' | rfl
          · rcases hcovt x hx' with hx'' | hx''
            · exact Or.inr (Or.inl hx'')
            · exact Or.inr (Or.inr hx'')
          · exact Or.inl rfl) h
      exact this hInv1

theorem loadDeps_error {registry : Registry V E} {requested : List String} :
    ∀ (fuel : Nat) (n : String) (s : GraphSt) (e : Err E),
    Reaches registry requested n → GInv registry requested s →
    loadDeps registry fuel n s = some (.error e) →
    ∃ m, e = .notFound m ∧ Reaches registry requested m ∧
      lookupKey registry m = none := by
  intro fuel
  induction fuel with
  | zero => intro n s e _ _ h; simp [loadDeps_zero] at h
  | succ fuel ih =>
    intro n s e hn hinv h
    by_cases h1 : (lookupKey s.dependencies n).isSome
    · rw [loadDeps_succ_memo h1] at h; simp at h
    cases h2 : lookupKey registry n with
    | none =>
      rw [loadDeps_succ_missing h1 h2] at h
      simp only [Option.some.injEq, Except.error.injEq] at h
      exact ⟨n, h.symm, hn, h2⟩
    | some fx =>
      rw [loadDeps_succ_go h1 h2] at h
      have hinv1 : GInv registry requested
          { s with dependencies := s.dependencies ++ [(n, fx.dependencies)] }
          := by
        obtain ⟨hed, htl⟩ := hinv
        refine ⟨?_, htl⟩
        intro p hp
        rcases List.mem_append.mp hp with hp' | hp'
        · exact hed p hp'
        · have : p = (n, fx.dependencies) := by simpa using hp'
          exact this ▸ ⟨fx, h2, rfl⟩
      obtain ⟨d, t, hd, hGt, hferr⟩ := chainM_error_inv (σ := GraphSt)
        (Q := fun t => GInv registry requested t)
        (fun d t t' hd hf hGt => by
          have hrd : Reaches registry requested d := hn.step h2 hd
          have hGt2 : GInv registry requested
              { t with toLoad := insertSet t.toLoad d } := by
            obtain ⟨hed, htl⟩ := hGt
            refine ⟨hed, ?_⟩
            intro x hx
            rcases mem_insertSet.mp hx with hx' | rfl
            · exact htl x hx'
            · exact hrd
          exact loadDeps_ok_inv fuel d _ t' hrd hf hGt2)
        hinv1 h
      have hrd : Reaches registry requested d := hn.step h2 hd
      have hGt2 : GInv registry requested
          { t with toLoad := insertSet t.toLoad d } := by
        obtain ⟨hed, htl⟩ := hGt
        refine ⟨hed, ?_⟩
        intro x hx
        rcases mem_insertSet.mp hx with hx' | rfl
        · exact htl x hx'
        · exact hrd
      exact ih d { t with toLoad := insertSet t.toLoad d } e hrd hGt2 hferr

theorem filter_notin_length_le {l v w : List String}
    (hvw : ∀ x, x ∈ v → x ∈ w) :
    (l.filter (fun x => x ∉ w)).length ≤
    (l.filter (fun x => x ∉ v)).length := by
  induction l with
  | nil => simp
  | cons b rest ih =>
    by_cases hbw : b ∈ w <;> by_cases hbv : b ∈ v
    · simpa [List.filter_cons, hbw, hbv] using ih
    · simp [List.filter_cons, hbw, hbv]
      simp at ih
      omega
    · exact absurd (hvw b hbv) hbw
    · simp [List.filter_cons, hbw, hbv]
      simp at ih
      omega

theorem filter_notin_congr {l v w : List String}
    (hvw : ∀ x, x ∈ v ↔ x ∈ w) :
    l.filter (fun x => x ∉ v) = l.filter (fun x => x ∉ w) := by
  apply List.filter_congr
  intro x _
  simp [hvw x]



/-- `loadDeps` cannot run out of fuel once the fuel exceeds the number of
registry names it has not memoised: each level of recursion memoises a fresh
registry name first. -/
theorem loadDeps_fuel_sufficient {registry : Registry V E} :
    ∀ (fuel : Nat) (n : String) (s : GraphSt),
    regFree registry s < fuel →
    loadDeps registry fuel n s ≠ none := by
  intro fuel
  induction fuel with
  | zero => intro n s h; omega
  | succ fuel ih =>
    intro n s hfuel h
    by_cases h1 : (lookupKey s.dependencies n).isSome
    · rw [loadDeps_succ_memo h1] at h; simp at h
    cases h2 : lookupKey registry n with
    | none => rw [loadDeps_succ_missing h1 h2] at h; simp at h
    | some fx =>
      rw [loadDeps_succ_go h1 h2] at h
      obtain ⟨d, t, _, hpre, hnone⟩ := chainM_none_inv (σ := GraphSt)
        (Q := fun t =>
          s.dependencies ++ [(n, fx.dependencies)] <+: t.dependencies)
        (fun d t t' _ hf hInv =>
          hInv.trans (loadDeps_ok_extends fuel d
            { t with toLoad := insertSet t.toLoad d } t' hf).1)
        List.prefix_rfl h
      have hkey : n ∈ (registry.map Prod.fst).dedup :=
        List.mem_dedup.mpr
          ((lookupKey_isSome_iff registry n).mp (by simp [h2]))
      have hnkeys : n ∉ s.dependencies.map Prod.fst :=
        fun hm => h1 ((lookupKey_isSome_iff s.dependencies n).mpr hm)
      have hstep : regFree registry
            { s with dependencies := s.dependencies ++ [(n, fx.dependencies)] }
            + 1 = regFree registry s := by
        unfold regFree
        have hiff : ∀ x,
            x ∈ (s.dependencies ++ [(n, fx.dependencies)]).map Prod.fst ↔
            x ∈ n :: s.dependencies.map Prod.fst := by
          intro x
          simp [or_comm]
        rw [filter_notin_congr hiff]
        exact filter_cons_length (registry.map Prod.fst).dedup
          (List.nodup_dedup _) hkey hnkeys
      have hmono : regFree registry t ≤ regFree registry
          { s with dependencies := s.dependencies ++ [(n, fx.dependencies)] }
          := by
        unfold regFree
        apply filter_notin_length_le
        intro x hx
        exact List.map_subset Prod.fst hpre.subset hx
      have : regFree registry { t with toLoad := insertSet t.toLoad d } <
          fuel := by
        have : regFree registry { t with toLoad := insertSet t.toLoad d } =
            regFree registry t := rfl
        omega
      exact ih d { t with toLoad := insertSet t.toLoad d } this hnone

/-- Soundness of the graph-building phase: on success, the recorded edge map
copies the registry's declared dependencies, `toLoad` is exactly the
dependency closure of the requested names (duplicate-free), every queued name
has a recorded entry, and every recorded dependency is queued. -/
theorem buildGraph_ok_spec {registry : Registry V E} {requested : List String}
    {g : GraphSt} (h : buildGraph registry requested = .ok g) :
    (∀ p ∈ g.dependencies,
      ∃ fx, lookupKey registry p.1 = some fx ∧ p.2 = fx.dependencies) ∧
    (∀ x ∈ g.toLoad, (lookupKey g.dependencies x).isSome) ∧
    (∀ p ∈ g.dependencies, ∀ d ∈ p.2, d ∈ g.toLoad) ∧
    (∀ x ∈ g.toLoad, Reaches registry requested x) ∧
    (∀ x, Reaches registry requested x → x ∈ g.toLoad) ∧
    g.toLoad.Nodup ∧
    (∀ x ∈ requested, x ∈ g.toLoad) := by
  unfold buildGraph at h
  cases hch : chainM
      (fun n s => loadDeps registry (registry.length + 1) n s) requested
      ⟨[], requested.foldl insertSet []⟩ with
  | none => rw [hch] at h; simp at h
  | some r =>
    cases r with
    | error e => rw [hch] at h; simp at h
    | ok st =>
      rw [hch] at h
      simp only [Except.ok.injEq] at h
      have h' : g = st := h.symm
      subst h'
      have hbase : ∀ x ∈ requested.foldl insertSet [], x ∈ requested := by
        intro x hx
        rcases foldl_insertSet_mem.mp hx with hx' | hx'
        · simp at hx'
        · exact hx'
      have hGinv : GInv registry requested g := by
        have := chainM_preserves (σ := GraphSt)
          (R := fun a b =>
            GInv registry requested a → GInv registry requested b)
          (fun s => id) (fun (_ _ _ : GraphSt) hab hbc hx => hbc (hab hx))
          (fun n t t' hn hf =>
            loadDeps_ok_inv _ n t t' (Reaches.base hn) hf) hch
        exact this ⟨by simp, fun x hx => Reaches.base (hbase x hx)⟩
      have hext : GraphSt.dependencies
            ⟨[], requested.foldl insertSet []⟩ <+: g.dependencies ∧
          GraphSt.toLoad
            ⟨[], requested.foldl insertSet []⟩ <+: g.toLoad := by
        exact chainM_preserves (σ := GraphSt)
          (R := fun a b =>
            a.dependencies <+: b.dependencies ∧ a.toLoad <+: b.toLoad)
          (fun s => ⟨List.prefix_rfl, List.prefix_rfl⟩)
          (fun (_ _ _ : GraphSt) hab hbc =>
            ⟨hab.1.trans hbc.1, hab.2.trans hbc.2⟩)
          (fun n t t' _ hf => loadDeps_ok_extends _ n t t' hf) hch
      have hreq : ∀ x ∈ requested, x ∈ g.toLoad := by
        intro x hx
        exact hext.2.subset (foldl_insertSet_mem.mpr (Or.inr hx))
      have hnodup : g.toLoad.Nodup := by
        have := chainM_preserves (σ := GraphSt)
          (R := fun a b => a.toLoad.Nodup → b.toLoad.Nodup)
          (fun s => id) (fun (_ _ _ : GraphSt) hab hbc hx => hbc (hab hx))
          (fun n t t' _ hf => loadDeps_ok_nodup _ n t t' hf) hch
        exact this (foldl_insertSet_nodup List.nodup_nil)
      have hcover : ∀ x ∈ g.toLoad,
          x ∈ requested ∨ (lookupKey g.dependencies x).isSome := by
        have := chainM_preserves (σ := GraphSt)
          (R := fun a b =>
            (∀ x ∈ a.toLoad,
              x ∈ requested ∨ (lookupKey a.dependencies x).isSome) →
            (∀ x ∈ b.toLoad,
              x ∈ requested ∨ (lookupKey b.dependencies x).isSome))
          (fun s => id) (fun (_ _ _ : GraphSt) hab hbc hx => hbc (hab hx))
          (fun n t t' hn hf hcovt =>
            loadDeps_ok_keys_cover requested _ n t t' hf
              (fun x hx => Or.inr (hcovt x hx))) hch
        exact this (fun x hx => Or.inl (hbase x hx))
      have hreqkeys : ∀ x ∈ requested,
          (lookupKey g.dependencies x).isSome := by
        exact chainM_all (σ := GraphSt)
          (P := fun n s => (lookupKey s.dependencies n).isSome)
          (fun n t t' _ hf => loadDeps_ok_mem _ n t t' hf)
          (fun x n t t' _ hf hx =>
            lookupKey_prefix_isSome (loadDeps_ok_extends _ n t t' hf).1 hx)
          hch
      have hkeys : ∀ x ∈ g.toLoad, (lookupKey g.dependencies x).isSome := by
        intro x hx
        rcases hcover x hx with hx' | hx'
        · exact hreqkeys x hx'
        · exact hx'
      have hranges : ∀ p ∈ g.dependencies, ∀ d ∈ p.2, d ∈ g.toLoad := by
        have hR := chainM_preserves (σ := GraphSt)
          (R := fun a b =>
            (∀ p ∈ b.dependencies,
              p ∈ a.dependencies ∨ ∀ d ∈ p.2, d ∈ b.toLoad) ∧
            a.toLoad ⊆ b.toLoad)
          (fun s => ⟨fun p hp => Or.inl hp, fun _ hx => hx⟩)
          (fun (_ _ _ : GraphSt) hab hbc =>
            ⟨fun p hp => by
              rcases hbc.1 p hp with hp' | hp'
              · rcases hab.1 p hp' with hp'' | hp''
                · exact Or.inl hp''
                · exact Or.inr fun d hd => hbc.2 (hp'' d hd)
              · exact Or.inr hp',
             fun x hx => hbc.2 (hab.2 hx)⟩)
          (fun n t t' _ hf =>
            ⟨loadDeps_ok_range _ n t t' hf,
             (loadDeps_ok_extends _ n t t' hf).2.subset⟩) hch
        intro p hp
        rcases hR.1 p hp with hp' | hp'
        · simp at hp'
        · exact hp'
      have hcomplete : ∀ x, Reaches registry requested x → x ∈ g.toLoad := by
        intro x hx
        induction hx with
        | base hb => exact hreq _ hb
        | step hr hlk hd ihx =>
          rename_i n d fx
          obtain ⟨ds, hds⟩ := Option.isSome_iff_exists.mp (hkeys n ihx)
          obtain ⟨fx', hfx', hds'⟩ :=
            hGinv.1 (n, ds) (lookupKey_some_mem hds)
          have : fx' = fx := by
            rw [hlk] at hfx'
            simpa using hfx'.symm
          subst this
          exact hranges (n, ds) (lookupKey_some_mem hds) d (hds' ▸ hd)
      exact ⟨hGinv.1, hkeys, hranges, hGinv.2, hcomplete, hnodup, hreq⟩

/-- A failing `buildGraph` always fails with a `notFound` error naming a
name that is in the dependency closure of the requested names and absent from
the registry (in particular, the fuel-exhaustion branch is dead code). -/
theorem buildGraph_error_spec {registry : Registry V E}
    {requested : List String} {e : Err E}
    (h : buildGraph registry requested = .error e) :
    ∃ m, e = .notFound m ∧ Reaches registry requested m ∧
      lookupKey registry m = none := by
  unfold buildGraph at h
  cases hch : chainM
      (fun n s => loadDeps registry (registry.length + 1) n s) requested
      ⟨[], requested.foldl insertSet []⟩ with
  | none =>
    obtain ⟨n, t, _, _, hnone⟩ := chainM_none_inv (σ := GraphSt)
      (Q := fun _ => True) (fun _ _ _ _ _ _ => trivial) trivial hch
    exfalso
    apply loadDeps_fuel_sufficient (registry.length + 1) n t _ hnone
    have hle : regFree registry t ≤ registry.length := by
      unfold regFree
      calc ((registry.map Prod.fst).dedup.filter
            (fun x => x ∉ t.dependencies.map Prod.fst)).length
          ≤ (registry.map Prod.fst).dedup.length :=
            (List.filter_sublist _).length_le
        _ ≤ (registry.map Prod.fst).length :=
            (List.dedup_sublist _).length_le
        _ = registry.length := List.length_map _ _
    omega
  | some r =>
    cases r with
    | ok st => rw [hch] at h; simp at h
    | error e' =>
      rw [hch] at h
      simp only [Except.error.injEq] at h
      subst h
      have hbase : ∀ x ∈ requested.foldl insertSet [], x ∈ requested := by
        intro x hx
        rcases foldl_insertSet_mem.mp hx with hx' | hx'
        · simp at hx'
        · exact hx'
      obtain ⟨n, t, hn, hGt, hferr⟩ := chainM_error_inv (σ := GraphSt)
        (Q := fun t => GInv registry requested t)
        (fun n t t' hn hf hGt =>
          loadDeps_ok_inv _ n t t' (Reaches.base hn) hf hGt)
        ⟨by simp, fun x hx => Reaches.base (hbase x hx)⟩ hch
      exact loadDeps_error _ n t e' (Reaches.base hn) hGt hferr

/-! ## Lemmas about `runFixtures`, `runCleanupsIgnoringErrors` and traces -/

theorem lookupKey_cons_isSome {β : Type _} {l : List (String × β)}
    {k x : String} {v : β} :
    (lookupKey ((k, v) :: l) x).isSome ↔ x = k ∨ (lookupKey l x).isSome := by
  by_cases h : k = x <;> simp [lookupKey, h]
  exact fun hx => (h hx.symm).elim

theorem mem_take_of_indexOf_lt {l : List String} {d : String} (hd : d ∈ l)
    {i : Nat} (h : l.indexOf d < i) : d ∈ l.take i := by
  have hlt : l.indexOf d < l.length := List.indexOf_lt_length.mpr hd
  exact List.mem_take_iff_getElem.mpr
    ⟨l.indexOf d, lt_min h hlt, List.getElem_indexOf hlt⟩

theorem runCleanups_eq_map {cs : List (CleanupSpec E)} :
    runCleanupsIgnoringErrors (V := V) cs =
      cs.map (fun c => Event.cleanupCall c.label) := by
  induction cs with
  | nil => rfl
  | cons c rest ih =>
    cases hc : c.fails <;> simp [runCleanupsIgnoringErrors, hc, ih]

theorem setupNames_append {tr1 tr2 : List (Event V)} :
    setupNames (tr1 ++ tr2) = setupNames tr1 ++ setupNames tr2 := by
  induction tr1 with
  | nil => rfl
  | cons ev rest ih => cases ev <;> simp [setupNames, ih]

theorem setupNames_cleanups {cs : List (CleanupSpec E)} :
    setupNames (runCleanupsIgnoringErrors (V := V) cs) = [] := by
  rw [runCleanups_eq_map]
  induction cs with
  | nil => rfl
  | cons c rest ih => simpa [setupNames] using ih



theorem runFixtures_none_spec {registry : Registry V E} :
    ∀ (names : List String) (vals vals' : List (String × V))
      (cs : List (CleanupSpec E)) (tr : List (Event V)),
    runFixtures registry names vals = (vals', cs, tr, none) →
    TraceMatches names vals tr ∧ setupNames tr = names ∧
    cs.length = names.length ∧
    (∀ x, (lookupKey vals' x).isSome ↔
      x ∈ names ∨ (lookupKey vals x).isSome) := by
  intro names
  induction names with
  | nil =>
    intro vals vals' cs tr h
    simp only [runFixtures, Prod.mk.injEq] at h
    obtain ⟨h1, h2, h3, _⟩ := h
    subst h1; subst h2; subst h3
    exact ⟨rfl, rfl, rfl, by simp⟩
  | cons n rest ih =>
    intro vals vals' cs tr h
    simp only [runFixtures] at h
    split at h
    · simp at h
    · rename_i fx hg
      split at h
      · simp at h
      · rename_i v c hs
        match hr : runFixtures registry rest ((n, v) :: vals) with
        | (vals2, cs2, tr2, err2) =>
          rw [hr] at h
          simp only [Prod.mk.injEq] at h
          obtain ⟨h1, h2, h3, h4⟩ := h
          subst h1; subst h2; subst h3
          obtain ⟨htm, hnm, hlen, hkeys⟩ := ih ((n, v) :: vals) vals2 cs2 tr2
            (by rw [hr, ← h4])
          refine ⟨⟨v, tr2, rfl, htm⟩, by simp [setupNames, hnm],
            by simp [hlen], ?_⟩
          intro x
          rw [hkeys x, lookupKey_cons_isSome]
          constructor
          · rintro (hx | (rfl | hx))
            · exact Or.inl (List.mem_cons_of_mem _ hx)
            · exact Or.inl (List.mem_cons_self _ _)
            · exact Or.inr hx
          · rintro (hx | hx)
            · rcases List.mem_cons.mp hx with rfl | hx'
              · exact Or.inr (Or.inl rfl)
              · exact Or.inl hx'
            · exact Or.inr (Or.inr hx)

theorem runFixtures_some_spec {registry : Registry V E} :
    ∀ (names : List String) (vals vals' : List (String × V))
      (cs : List (CleanupSpec E)) (tr : List (Event V)) (e : Err E),
    (∀ n ∈ names, (lookupKey registry n).isSome) →
    runFixtures registry names vals = (vals', cs, tr, some e) →
    ∃ k, k < names.length ∧ setupNames tr = names.take (k + 1) ∧
      cs.length = k ∧ ∃ e₀, e = .user e₀ := by
  intro names
  induction names with
  | nil =>
    intro vals vals' cs tr e _ h
    simp only [runFixtures, Prod.mk.injEq] at h
    exact absurd h.2.2.2 (by simp)
  | cons n rest ih =>
    intro vals vals' cs tr e hpres h
    simp only [runFixtures] at h
    split at h
    · rename_i e' hg
      exfalso
      have hsome := hpres n (by simp)
      unfold getFixture at hg
      cases hv : lookupKey registry n with
      | none => rw [hv] at hsome; simp at hsome
      | some fx => rw [hv] at hg; simp at hg
    · rename_i fx hg
      split at h
      · rename_i e0 hs
        simp only [Prod.mk.injEq] at h
        obtain ⟨h1, h2, h3, h4⟩ := h
        subst h2; subst h3
        refine ⟨0, by simp, by simp [setupNames], rfl, e0, ?_⟩
        simpa using h4.symm
      · rename_i v c hs
        match hr : runFixtures registry rest ((n, v) :: vals) with
        | (vals2, cs2, tr2, err2) =>
          rw [hr] at h
          simp only [Prod.mk.injEq] at h
          obtain ⟨h1, h2, h3, h4⟩ := h
          subst h1; subst h2; subst h3
          obtain ⟨k, hk, hnm, hlen, e₀, he⟩ := ih ((n, v) :: vals) vals2 cs2
            tr2 e (fun m hm => hpres m (by simp [hm])) (by rw [hr, ← h4])
          exact ⟨k + 1, by simpa using hk,
            by simp [setupNames, hnm], by simp [hlen], e₀, he⟩

theorem traceMatches_passed :
    ∀ (names : List String) (vals : List (String × V)) (tr : List (Event V)),
    TraceMatches names vals tr →
    ∀ m p, Event.setupCall m p ∈ tr →
    ∃ i, names[i]? = some m ∧
      ∀ x, (lookupKey p x).isSome ↔
        x ∈ names.take i ∨ (lookupKey vals x).isSome := by
  intro names
  induction names with
  | nil =>
    intro vals tr htm m p hm
    simp only [TraceMatches] at htm
    subst htm; simp at hm
  | cons n rest ih =>
    intro vals tr htm m p hm
    obtain ⟨v, tr', rfl, htm'⟩ := htm
    rcases List.mem_cons.mp hm with hev | hev
    · obtain ⟨hm1, hm2⟩ : m = n ∧ p = vals := by simpa using hev
      subst hm1; subst hm2
      exact ⟨0, by simp, fun x => by simp⟩
    · obtain ⟨i, hi, hiff⟩ := ih ((n, v) :: vals) tr' htm' m p hev
      refine ⟨i + 1, by simpa using hi, ?_⟩
      intro x
      rw [hiff x, lookupKey_cons_isSome]
      simp only [List.take_succ_cons, List.mem_cons]
      tauto

/-! ## The combined behaviour of a successful `setup` pass -/

theorem setup_ok_elim {registry : Registry V E} {requested : List String}
    {st st' : FixState V E} {tr : List (Event V)}
    (h : setup registry requested st = (st', tr, .ok ())) :
    ∃ g sorted vals cs,
      buildGraph registry requested = .ok g ∧
      sortFixtures (E := E) g.toLoad g.dependencies = .ok sorted ∧
      runFixtures registry sorted [] = (vals, cs, tr, none) ∧
      st' = ⟨some vals, cs⟩ := by
  unfold setup at h
  cases hg : buildGraph registry requested with
  | error e => rw [hg] at h; simp at h
  | ok g =>
    rw [hg] at h
    simp only at h
    cases hs : sortFixtures (E := E) g.toLoad g.dependencies with
    | error e => rw [hs] at h; simp at h
    | ok sorted =>
      rw [hs] at h
      simp only at h
      match hr : runFixtures registry sorted [] with
      | (vals, cs, tr2, err) =>
        rw [hr] at h
        cases err with
        | none =>
          simp only [Prod.mk.injEq] at h
          obtain ⟨h1, h2, _⟩ := h
          exact ⟨g, sorted, vals, cs, rfl, hs, by rw [hr, h2], h1.symm⟩
        | some e => simp at h

theorem setup_ok_spec {registry : Registry V E} {requested : List String}
    {st st' : FixState V E} {tr : List (Event V)}
    (h : setup registry requested st = (st', tr, .ok ())) :
    (∀ n, n ∈ setupNames tr ↔ Reaches registry requested n) ∧
    (setupNames tr).Nodup ∧
    (∀ n fx, lookupKey registry n = some fx → n ∈ setupNames tr →
      ∀ d ∈ fx.dependencies,
        (setupNames tr).indexOf d < (setupNames tr).indexOf n) ∧
    (∀ n p, Event.setupCall n p ∈ tr →
      ∀ fx, lookupKey registry n = some fx →
        ∀ d ∈ fx.dependencies, (lookupKey p d).isSome) ∧
    st'.deps.isSome ∧
    st'.cleanups.length = (setupNames tr).length := by
  obtain ⟨g, sorted, vals, cs, hg, hs, hr, hst⟩ := setup_ok_elim h
  obtain ⟨hfaith, hkeys, hranges, hreachS, hcompl, _, _⟩ :=
    buildGraph_ok_spec hg
  obtain ⟨hndS, hmemS, htopoS⟩ := sortFixtures_ok_spec hranges hs
  obtain ⟨htm, hnames, hlen, _⟩ := runFixtures_none_spec sorted [] vals cs tr hr
  have hedge : ∀ n, n ∈ sorted → ∀ fx, lookupKey registry n = some fx →
      ∀ d ∈ fx.dependencies, EdgeOf g.dependencies n d := by
    intro n hn fx hlk d hd
    have hnT : n ∈ g.toLoad := (hmemS n).mp hn
    obtain ⟨ds, hds⟩ := Option.isSome_iff_exists.mp (hkeys n hnT)
    obtain ⟨fx', hfx', hds'⟩ := hfaith (n, ds) (lookupKey_some_mem hds)
    have : fx' = fx := by
      rw [hlk] at hfx'
      simpa using hfx'.symm
    subst this
    exact ⟨ds, hds, (show ds = fx'.dependencies from hds') ▸ hd⟩
  refine ⟨?_, hnames ▸ hndS, ?_, ?_, ?_, ?_⟩
  · intro n
    rw [hnames]
    exact ⟨fun hn => hreachS n ((hmemS n).mp hn),
      fun hn => (hmemS n).mpr (hcompl n hn)⟩
  · intro n fx hlk hmem d hd
    rw [hnames] at hmem ⊢
    exact (htopoS n hmem d (hedge n hmem fx hlk d hd)).2
  · intro n p hev fx hlk d hd
    obtain ⟨i, hi, hiff⟩ := traceMatches_passed sorted [] tr htm n p hev
    obtain ⟨hilt, hig⟩ := List.getElem?_eq_some.mp hi
    have hnmem : n ∈ sorted := hig ▸ List.getElem_mem hilt
    have hidx : sorted.indexOf n = i := by
      have := List.indexOf_getElem hndS i hilt
      rw [hig] at this
      exact this
    obtain ⟨hdS, hdlt⟩ := htopoS n hnmem d (hedge n hnmem fx hlk d hd)
    rw [hiff d]
    exact Or.inl (mem_take_of_indexOf_lt hdS (hidx ▸ hdlt))
  · rw [hst]; simp
  · rw [hst, hnames]
    simpa using hlen

/-! ## The claims -/

/-- C1: the claim states that when a cleanup raises during an explicit
`teardown()`, every remaining cleanup still runs and the first error is
re-raised after all cleanups have run.  The code runs every cleanup but
catches and ignores every cleanup error (`await cleanup().catch(() => {})`),
so `teardown()` resolves successfully and never re-raises anything — here
evaluated at the scenario of the repository's own test
`should throw if cleanup fails` (which this code therefore fails): the
second-to-run cleanup rejects, all three cleanups are still invoked, and the
outcome is `ok`, not the first cleanup error. -/
theorem teardown_swallows_cleanup_errors :
    teardown (V := String) (E := String)
      ⟨some [("a", "a"), ("b", "b"), ("c", "c")],
       [⟨"cleanup1", none⟩, ⟨"cleanup2", some "cleanup failed"⟩,
        ⟨"cleanup3", none⟩]⟩ =
      (⟨none, []⟩,
       [Event.cleanupCall "cleanup3", Event.cleanupCall "cleanup2",
        Event.cleanupCall "cleanup1"], .ok ()) := rfl

/-- C2: when graph building and sorting succeed and the `(k+1)`-st fixture of
the sorted order raises during its setup operation (after `k` fixtures set up
successfully, pushing `k` cleanups in setup order), `setup()` invokes exactly
those pushed cleanups, each once, in reverse push order, ignoring any errors
they raise (the cleanups' raise-behaviours are universally quantified and do
not affect the outcome), clears the instance state, and re-raises the
original setup error (a `user` error, not any rollback error). -/
theorem setup_rollback_on_failure (registry : Registry V E)
    (requested : List String) (st : FixState V E) (g : GraphSt)
    (sorted : List String) (vals : List (String × V))
    (cs : List (CleanupSpec E)) (tr : List (Event V)) (e : Err E)
    (hg : buildGraph registry requested = .ok g)
    (hs : sortFixtures (E := E) g.toLoad g.dependencies = .ok sorted)
    (hr : runFixtures registry sorted [] = (vals, cs, tr, some e)) :
    setup registry requested st =
      (⟨none, []⟩,
       tr ++ (cs.reverse).map (fun c => Event.cleanupCall c.label),
       .error e) ∧
    (∃ k, k < sorted.length ∧ setupNames tr = sorted.take (k + 1) ∧
      cs.length = k) ∧
    (∃ e₀, e = .user e₀) := by
  have hpres : ∀ n ∈ sorted, (lookupKey registry n).isSome := by
    obtain ⟨hfaith, hkeys, hranges, _, _, _, _⟩ := buildGraph_ok_spec hg
    obtain ⟨_, hmemS, _⟩ := sortFixtures_ok_spec hranges hs
    intro n hn
    have hnT : n ∈ g.toLoad := (hmemS n).mp hn
    obtain ⟨ds, hds⟩ := Option.isSome_iff_exists.mp (hkeys n hnT)
    obtain ⟨fx', hfx', _⟩ := hfaith (n, ds) (lookupKey_some_mem hds)
    simp [hfx']
  obtain ⟨k, hk, hnm, hlen, he⟩ :=
    runFixtures_some_spec sorted [] vals cs tr e hpres hr
  refine ⟨?_, ⟨k, hk, hnm, hlen⟩, he⟩
  unfold setup
  rw [hg]
  simp only
  rw [hs]
  simp only
  rw [hr]
  simp [runCleanups_eq_map]

/-- C2 witness: the rollback scenario of the repository's test
`should cleanup already-created fixtures when setup fails` — fixture `c`
raises, the cleanups of `b` then `a` run (in reverse setup order), the state
is cleared and the original error surfaces. -/
theorem setup_rollback_on_failure_witness :
    setup exRegC2 ["c"] (initState String String) =
      (⟨none, []⟩,
       [Event.setupCall "a" [], Event.setupCall "b" [("a", "a")],
        Event.setupCall "c" [("b", "b"), ("a", "a")],
        Event.cleanupCall "cleanup2", Event.cleanupCall "cleanup1"],
       .error (.user "setup failed")) :=
  (setup_rollback_on_failure exRegC2 ["c"] (initState String String)
    ⟨[("c", ["b"]), ("b", ["a"]), ("a", [])], ["c", "b", "a"]⟩
    ["a", "b", "c"] [("b", "b"), ("a", "a")]
    [⟨"cleanup1", none⟩, ⟨"cleanup2", none⟩]
    [Event.setupCall "a" [], Event.setupCall "b" [("a", "a")],
     Event.setupCall "c" [("b", "b"), ("a", "a")]]
    (.user "setup failed") rfl rfl rfl).1

/-- C3: for every successful `setup()` pass, the sequence of names whose
setup operations were invoked (the trace) contains exactly the dependency
closure of the requested names, each exactly once; every fixture whose setup
was invoked is invoked only after all of its declared dependencies; and the
values record passed to each setup operation contains an entry for every one
of the fixture's declared dependencies. -/
theorem setup_topological_order (registry : Registry V E)
    (requested : List String) (st st' : FixState V E) (tr : List (Event V))
    (h : setup registry requested st = (st', tr, .ok ())) :
    (∀ n, n ∈ setupNames tr ↔ Reaches registry requested n) ∧
    (setupNames tr).Nodup ∧
    (∀ n fx, lookupKey registry n = some fx → n ∈ setupNames tr →
      ∀ d ∈ fx.dependencies,
        (setupNames tr).indexOf d < (setupNames tr).indexOf n) ∧
    (∀ n p, Event.setupCall n p ∈ tr →
      ∀ fx, lookupKey registry n = some fx →
        ∀ d ∈ fx.dependencies, (lookupKey p d).isSome) := by
  obtain ⟨h1, h2, h3, h4, _, _⟩ := setup_ok_spec h
  exact ⟨h1, h2, h3, h4⟩

/-- C3 witness: the db/client scenario — `db` is set up before `client`,
each exactly once, and `client` receives `db`'s value. -/
theorem setup_topological_order_witness :
    setup exRegC3 ["client"] (initState String String) =
      (⟨some [("client", "client-with-db-instance"), ("db", "db-instance")],
        [⟨"cl-db", none⟩, ⟨"cl-client", none⟩]⟩,
       [Event.setupCall "db" [],
        Event.setupCall "client" [("db", "db-instance")]],
       .ok ()) ∧
    (setupNames [Event.setupCall "db" ([] : List (String × String)),
      Event.setupCall "client" [("db", "db-instance")]]).Nodup :=
  ⟨rfl,
   (setup_topological_order exRegC3 ["client"] (initState String String)
     ⟨some [("client", "client-with-db-instance"), ("db", "db-instance")],
       [⟨"cl-db", none⟩, ⟨"cl-client", none⟩]⟩
     [Event.setupCall "db" [],
      Event.setupCall "client" [("db", "db-instance")]] rfl).2.1⟩

/-- C4: after a successful `setup()` that left the pending cleanup list
`[c1, ..., cn]` (one cleanup per invoked fixture, pushed in setup order --
the length correspondence with the setup-invocation trace is part of the
statement), `teardown()` invokes the cleanups in exactly the reversed order
`[cn, ..., c1]` and clears the instance state, regardless of which cleanups
raise (their raise-behaviours are arbitrary and the outcome is `ok`). -/
theorem teardown_reverse_order (registry : Registry V E)
    (requested : List String) (st st' : FixState V E) (tr : List (Event V))
    (h : setup registry requested st = (st', tr, .ok ())) :
    teardown st' =
      (⟨none, []⟩,
       (st'.cleanups.reverse).map (fun c => Event.cleanupCall c.label),
       .ok ()) ∧
    st'.cleanups.length = (setupNames tr).length := by
  refine ⟨?_, (setup_ok_spec h).2.2.2.2.2⟩
  unfold teardown
  rw [runCleanups_eq_map]

/-- C4 witness: the chain scenario of the repository's test
`should execute cleanup in reverse order` — setup order `a, b, c`, cleanup
order `c, b, a`, state cleared. -/
theorem teardown_reverse_order_witness :
    teardown (⟨some [("c", "c"), ("b", "b"), ("a", "a")],
        [⟨"a-cl", none⟩, ⟨"b-cl", none⟩, ⟨"c-cl", none⟩]⟩ :
        FixState String String) =
      (⟨none, []⟩,
       [Event.cleanupCall "c-cl", Event.cleanupCall "b-cl",
        Event.cleanupCall "a-cl"], .ok ()) :=
  (teardown_reverse_order exRegC4 ["c"] (initState String String)
    ⟨some [("c", "c"), ("b", "b"), ("a", "a")],
      [⟨"a-cl", none⟩, ⟨"b-cl", none⟩, ⟨"c-cl", none⟩]⟩
    [Event.setupCall "a" [], Event.setupCall "b" [("a", "a")],
     Event.setupCall "c" [("b", "b"), ("a", "a")]] rfl).1

/-- C5: when a fixture is a shared dependency of two distinct fixtures that
are both in the dependency closure of the requested names, a single
successful `setup()` pass invokes the shared fixture's setup operation
exactly once. -/
theorem setup_shared_dependency_once (registry : Registry V E)
    (requested : List String) (st st' : FixState V E) (tr : List (Event V))
    (shared f₁ f₂ : String) (fx₁ fx₂ : AnyFixture V E)
    (h : setup registry requested st = (st', tr, .ok ()))
    (h₁ : lookupKey registry f₁ = some fx₁)
    (_h₂ : lookupKey registry f₂ = some fx₂)
    (_hne : f₁ ≠ f₂)
    (hr₁ : Reaches registry requested f₁)
    (_hr₂ : Reaches registry requested f₂)
    (hd₁ : shared ∈ fx₁.dependencies)
    (_hd₂ : shared ∈ fx₂.dependencies) :
    (setupNames tr).count shared = 1 := by
  obtain ⟨hmem, hnd, _, _, _, _⟩ := setup_ok_spec h
  exact List.count_eq_one_of_mem hnd
    ((hmem shared).mpr (hr₁.step h₁ hd₁))

/-- C5 witness: the diamond scenario of the repository's test
`should handle shared dependencies` — `shared` is set up exactly once even
though both `foo` and `bar` depend on it. -/
theorem setup_shared_dependency_once_witness :
    (setupNames [Event.setupCall "shared" ([] : List (String × String)),
      Event.setupCall "foo" [("shared", "shared-value")],
      Event.setupCall "bar"
        [("foo", "foo"), ("shared", "shared-value")]]).count "shared" = 1 :=
  setup_shared_dependency_once exRegC5 ["foo", "bar"]
    (initState String String)
    ⟨some [("bar", "bar"), ("foo", "foo"), ("shared", "shared-value")],
      [⟨"cl-shared", none⟩, ⟨"cl-foo", none⟩, ⟨"cl-bar", none⟩]⟩
    [Event.setupCall "shared" [],
     Event.setupCall "foo" [("shared", "shared-value")],
     Event.setupCall "bar" [("foo", "foo"), ("shared", "shared-value")]]
    "shared" "foo" "bar" fxC5foo fxC5bar rfl rfl rfl (by decide)
    (Reaches.base (by simp)) (Reaches.base (by simp))
    (by simp [fxC5foo]) (by simp [fxC5bar])

/-- C6: for every registry whose declared-dependency relation has a cycle
reachable from the requested names (and whose reachable names all exist in
the registry, so that graph building does not abort first with a missing
fixture), `setup()` fails with a circular-dependency error naming a node that
lies on a genuine dependency cycle, performs zero fixture setup invocations
(the trace is empty) and leaves the instance state untouched. -/
theorem setup_circular_dependency (registry : Registry V E)
    (requested : List String) (st : FixState V E) (c₀ : String)
    (hcyc : Relation.TransGen (DepEdge registry) c₀ c₀)
    (hreach : Reaches registry requested c₀)
    (hnomiss : ∀ n, Reaches registry requested n →
      (lookupKey registry n).isSome) :
    ∃ c, Relation.TransGen (DepEdge registry) c c ∧
      setup registry requested st = (st, [], .error (.circular c)) := by
  cases hbg : buildGraph registry requested with
  | error e =>
    exfalso
    obtain ⟨m, _, hmre, hmnone⟩ := buildGraph_error_spec hbg
    have := hnomiss m hmre
    rw [hmnone] at this
    simp at this
  | ok g =>
    obtain ⟨hfaith, hkeys, hranges, hreachT, hcompl, _, _⟩ :=
      buildGraph_ok_spec hbg
    have hedge_to : ∀ a b, a ∈ g.toLoad → DepEdge registry a b →
        EdgeOf g.dependencies a b := by
      rintro a b ha ⟨fx, hfx, hb⟩
      obtain ⟨ds, hds⟩ := Option.isSome_iff_exists.mp (hkeys a ha)
      obtain ⟨fx', hfx', hds'⟩ := hfaith (a, ds) (lookupKey_some_mem hds)
      have hfe : fx' = fx := by
        rw [hfx] at hfx'
        simpa using hfx'.symm
      subst hfe
      exact ⟨ds, hds, (show ds = fx'.dependencies from hds') ▸ hb⟩
    have hedge_from : ∀ a b, EdgeOf g.dependencies a b →
        DepEdge registry a b := by
      rintro a b ⟨ds, hds, hb⟩
      obtain ⟨fx', hfx', hds'⟩ := hfaith (a, ds) (lookupKey_some_mem hds)
      exact ⟨fx', hfx', (show ds = fx'.dependencies from hds') ▸ hb⟩
    cases hsf : sortFixtures (E := E) g.toLoad g.dependencies with
    | ok sorted =>
      exfalso
      obtain ⟨hndS, hmemS, htopoS⟩ := sortFixtures_ok_spec hranges hsf
      have hstep : ∀ a b, DepEdge registry a b →
          Reaches registry requested a → a ∈ sorted →
          Reaches registry requested b ∧ b ∈ sorted ∧
            sorted.indexOf b < sorted.indexOf a := by
        intro a b hab hra ha
        obtain ⟨fx, hfx, hb⟩ := hab
        have hrb : Reaches registry requested b := hra.step hfx hb
        obtain ⟨hbs, hlt⟩ := htopoS a ha b
          (hedge_to a b ((hmemS a).mp ha) ⟨fx, hfx, hb⟩)
        exact ⟨hrb, hbs, hlt⟩
      have hc0s : c₀ ∈ sorted := (hmemS c₀).mpr (hcompl c₀ hreach)
      have hdec : ∀ b, Relation.TransGen (DepEdge registry) c₀ b →
          Reaches registry requested b ∧ b ∈ sorted ∧
          sorted.indexOf b < sorted.indexOf c₀ := by
        intro b htg
        induction htg with
        | single hab => exact hstep c₀ _ hab hreach hc0s
        | tail hab hbc ih =>
          obtain ⟨hrb, hbs, hlt⟩ := ih
          obtain ⟨hrc, hcs, hlt'⟩ := hstep _ _ hbc hrb hbs
          exact ⟨hrc, hcs, hlt'.trans hlt⟩
      obtain ⟨_, _, hlt⟩ := hdec c₀ hcyc
      omega
    | error e =>
      obtain ⟨c, rfl, hcycE⟩ := sortFixtures_error_spec hsf
      refine ⟨c, Relation.TransGen.mono hedge_from hcycE, ?_⟩
      unfold setup
      rw [hbg]
      simp only
      rw [hsf]

/-- C6 witness: the two-cycle of the repository's test
`should throw on circular dependency` — `a` depends on `b` and `b` on `a`;
`setup()` with requested `!["a"]` fails with a circular-dependency error on a
node of the cycle, with no setup invocations and the state untouched. -/
theorem setup_circular_dependency_witness :
    ∃ c, Relation.TransGen (DepEdge exRegC6) c c ∧
      setup exRegC6 ["a"] (initState String String) =
        (initState String String, [], .error (.circular c)) := by
  have hmemb : ∀ n, Reaches exRegC6 ["a"] n → n = "a" ∨ n = "b" := by
    intro n h
    induction h with
    | base hb =>
      left
      simpa using hb
    | step hp hl hd ih =>
      rename_i m d fx
      rcases ih with rfl | rfl
      · have hsome : some fxC6a = some fx := hl
        have hfx : fx = fxC6a := by simpa using hsome.symm
        subst hfx
        right
        simpa [fxC6a] using hd
      · have hsome : some fxC6b = some fx := hl
        have hfx : fx = fxC6b := by simpa using hsome.symm
        subst hfx
        left
        simpa [fxC6b] using hd
  exact setup_circular_dependency exRegC6 ["a"] (initState String String) "a"
    (Relation.TransGen.head
      (show DepEdge exRegC6 "a" "b" from ⟨fxC6a, rfl, by simp [fxC6a]⟩)
      (Relation.TransGen.single
        (show DepEdge exRegC6 "b" "a" from ⟨fxC6b, rfl, by simp [fxC6b]⟩)))
    (Reaches.base (by simp))
    (fun n hn => by rcases hmemb n hn with rfl | rfl <;> rfl)

/-- C7: when some name in the dependency closure of the requested names
(a requested name or a transitively declared dependency) has no registry
entry, `setup()` fails during graph building with a `Fixture not found` error
naming such a missing reachable name, before any fixture setup operation has
been invoked (the trace is empty) and with the instance state untouched. -/
theorem setup_missing_fixture (registry : Registry V E)
    (requested : List String) (st : FixState V E) (m : String)
    (hreach : Reaches registry requested m)
    (hmiss : lookupKey registry m = none) :
    ∃ m', Reaches registry requested m' ∧ lookupKey registry m' = none ∧
      setup registry requested st = (st, [], .error (.notFound m')) := by
  cases hbg : buildGraph registry requested with
  | ok g =>
    exfalso
    obtain ⟨hfaith, hkeys, _, _, hcompl, _, _⟩ := buildGraph_ok_spec hbg
    obtain ⟨ds, hds⟩ :=
      Option.isSome_iff_exists.mp (hkeys m (hcompl m hreach))
    obtain ⟨fx', hfx', _⟩ := hfaith (m, ds) (lookupKey_some_mem hds)
    rw [hmiss] at hfx'
    simp at hfx'
  | error e =>
    obtain ⟨m', he, hre, hnone⟩ := buildGraph_error_spec hbg
    refine ⟨m', hre, hnone, ?_⟩
    unfold setup
    rw [hbg, he]

/-- C7 witness: fixture `a` declares the dependency `missing`, which has no
registry entry; `setup()` fails with `Fixture not found` for a reachable
missing name, invoking nothing. -/
theorem setup_missing_fixture_witness :
    ∃ m', Reaches exRegC7 ["a"] m' ∧ lookupKey exRegC7 m' = none ∧
      setup exRegC7 ["a"] (initState String String) =
        (initState String String, [], .error (.notFound m')) :=
  setup_missing_fixture exRegC7 ["a"] (initState String String) "missing"
    (Reaches.step (n := "a") (d := "missing")
      (Reaches.base (by simp)) rfl (by simp [fxC7a]))
    rfl

/-- C8: `get()` raises the not-initialized error exactly when the instance
state holds no resolved values; otherwise it returns the key-value pairs for
exactly the originally requested names (not the full closure), each mapped to
its resolved value.  `get` is a pure function of the state (it returns no new
state), and the no-resolved-values situations are: the freshly constructed
state, the state after any `teardown()`, and (per the rollback theorem) the
state after a failed setup. -/
theorem get_spec (requested : List String) (st : FixState V E) :
    (get requested st = .error .notInitialized ↔ st.deps = none) ∧
    (∀ vals, st.deps = some vals →
      get requested st = .ok (requested.map fun n => (n, lookupKey vals n)) ∧
      (requested.map fun n => (n, lookupKey vals n)).map Prod.fst =
        requested) ∧
    (∀ st₀ : FixState V E, (teardown st₀).1.deps = none) ∧
    (initState V E).deps = none := by
  refine ⟨?_, ?_, fun st₀ => rfl, rfl⟩
  · cases hd : st.deps with
    | none => simp [get, hd]
    | some vals => simp [get, hd]
  · intro vals hd
    refine ⟨by simp [get, hd], ?_⟩
    induction requested with
    | nil => rfl
    | cons a rest ih => simpa using ih

/-- C8 witness: with resolved values present, `get` returns exactly the
requested key mapped to its value; on the cleared state it raises the
not-initialized error. -/
theorem get_spec_witness :
    get ["foo"] (⟨some [("foo", "v")], []⟩ : FixState String String) =
      .ok [("foo", some "v")] ∧
    get ["foo"] (⟨none, []⟩ : FixState String String) =
      .error .notInitialized :=
  ⟨((get_spec ["foo"]
      (⟨some [("foo", "v")], []⟩ : FixState String String)).2.1
      [("foo", "v")] rfl).1,
   (get_spec ["foo"] (⟨none, []⟩ : FixState String String)).1.mpr rfl⟩

/-- C9: `teardown()` is idempotent — after one `teardown()` the pending
cleanup list is empty, so a second (or any later) `teardown()` without an
intervening `setup()` invokes no cleanup operations (empty trace) and leaves
the instance state cleared. -/
theorem teardown_idempotent (st : FixState V E) :
    teardown ((teardown st).1) =
      (⟨none, []⟩, ([] : List (Event V)), .ok ()) := rfl

/-- C10: for an empty requested list, `setup()` succeeds with zero fixture
setup invocations and stores an empty values record (not `null`), so a
subsequent `get()` does not raise the not-initialized error but returns an
empty record. -/
theorem setup_empty_requested (registry : Registry V E) (st : FixState V E) :
    setup registry [] st =
      (⟨some [], []⟩, ([] : List (Event V)), .ok ()) ∧
    get [] (⟨some [], []⟩ : FixState V E) = .ok [] := ⟨rfl, rfl⟩

end FixturesTs
